import Mathlib

/-!
Verification of the `dh-crack` library (`src/lib.rs`): a Pohlig–Hellman
discrete-logarithm solver over the fixed group `p = 2^64 - 59`, `g = 5`,
together with its key-encoding boundary.

Shallow embedding conventions:
* `u128` values are modeled as `Nat`; multiplication that can exceed the
  128-bit width is reduced modulo `2^128` exactly where the Rust `u128`
  product wraps (`mod_mul`).
* `BigUint`/`BigInt` are modeled as `Nat`/`Int` (unbounded, exact).
* Rust `while` loops are modeled as fuel-indexed structural recursion; each
  wrapper supplies fuel proven (or evidently) sufficient, so the fueled
  function agrees with the source loop on all inputs considered.
* `Option`-returning fallible code maps to `Option`, `Result` to `Except`.
-/

namespace DhCrack

/-- The width bound of the Rust `u128` type. -/
def U128 : Nat := 2 ^ 128

/-- `pub const MODULUS: u128 = (1u128 << 64) - 59;` -/
def MODULUS : Nat := 2 ^ 64 - 59

/-- `pub const GENERATOR: u128 = 5;` -/
def GENERATOR : Nat := 5

/-- `fn mod_mul(a, b, m) = (a * b) % m` on `u128`: the product wraps at
`2 ^ 128` before the reduction, which we model exactly. -/
def mod_mul (a b m : Nat) : Nat := a * b % U128 % m

/-- The `while exp > 0` loop of `mod_pow`, fueled.  One step: if the low bit
of `exp` is set, fold `base` into `result`; then halve `exp` and square
`base`, all with `mod_mul`. -/
def modPowLoop : Nat → Nat → Nat → Nat → Nat → Nat
  | 0, _, _, _, result => result
  | fuel + 1, base, exp, m, result =>
    if exp = 0 then result
    else
      modPowLoop fuel (mod_mul base base m) (exp / 2) m
        (if exp % 2 = 1 then mod_mul result base m else result)

/-- `fn mod_pow(base, exp, m)`: square-and-multiply.  `m == 1` returns `0`;
otherwise `base` is reduced mod `m` first and the loop runs with
accumulator `1`.  Fuel `exp + 1` strictly exceeds the iteration count
(the loop exits as soon as `exp = 0`, and `exp` halves each step). -/
def mod_pow (base exp m : Nat) : Nat :=
  if m = 1 then 0 else modPowLoop (exp + 1) (base % m) exp m 1

theorem modPowLoop_exit (fuel base m result : Nat) :
    modPowLoop fuel base 0 m result = result := by
  cases fuel <;> simp [modPowLoop]

theorem modPowLoop_step (fuel base exp m result : Nat) (h : exp ≠ 0) :
    modPowLoop (fuel + 1) base exp m result =
      modPowLoop fuel (mod_mul base base m) (exp / 2) m
        (if exp % 2 = 1 then mod_mul result base m else result) := by
  simp [modPowLoop, h]

/-- For a modulus that fits in 64 bits, the wrap in `mod_mul` is unreachable
when both factors are below the modulus. -/
theorem mul_lt_mul_of_lt_of_lt {a b m : Nat} (ha : a < m) (hb : b < m) :
    a * b < m * m :=
  mul_lt_mul' ha.le hb (Nat.zero_le _) (by omega)

theorem mod_mul_eq_of_le (a b m : Nat) (ha : a < m) (hb : b < m)
    (hm : m ≤ 2 ^ 64) : mod_mul a b m = a * b % m := by
  have h1 : a * b < U128 := by
    have h2 : a * b < m * m := mul_lt_mul_of_lt_of_lt ha hb
    have h3 : m * m ≤ 2 ^ 64 * 2 ^ 64 := Nat.mul_le_mul hm hm
    have h4 : (2:Nat) ^ 64 * 2 ^ 64 = U128 := by norm_num [U128]
    omega
  unfold mod_mul
  rw [Nat.mod_eq_of_lt h1]

theorem modPowLoop_correct (m : Nat) (hm1 : 1 < m) (hm : m ≤ 2 ^ 64) :
    ∀ exp fuel base result, exp < fuel → base < m → result < m →
      modPowLoop fuel base exp m result = result * base ^ exp % m := by
  intro exp
  induction exp using Nat.strong_induction_on with
  | _ exp ih =>
    intro fuel base result hfuel hbase hres
    match fuel, hfuel with
    | fuel + 1, hfuel =>
      by_cases h0 : exp = 0
      · subst h0
        rw [modPowLoop_exit, pow_zero, Nat.mul_one, Nat.mod_eq_of_lt hres]
      · rw [modPowLoop_step _ _ _ _ _ h0]
        have hhalf : exp / 2 < exp := Nat.div_lt_self (Nat.pos_of_ne_zero h0) one_lt_two
        have hmpos : 0 < m := by omega
        have hb2 : mod_mul base base m < m :=
          (mod_mul_eq_of_le base base m hbase hbase hm) ▸ Nat.mod_lt _ hmpos
        by_cases hodd : exp % 2 = 1
        · have hrb : mod_mul result base m < m :=
            (mod_mul_eq_of_le result base m hres hbase hm) ▸ Nat.mod_lt _ hmpos
          rw [if_pos hodd,
            ih (exp / 2) hhalf fuel _ _ (by omega) hb2 hrb,
            mod_mul_eq_of_le _ _ _ hres hbase hm,
            mod_mul_eq_of_le _ _ _ hbase hbase hm]
          have key : (result * base % m) * (base * base % m) ^ (exp / 2) ≡
              result * base ^ exp [MOD m] := by
            calc (result * base % m) * (base * base % m) ^ (exp / 2)
                ≡ result * base * (base * base) ^ (exp / 2) [MOD m] :=
                  Nat.ModEq.mul (Nat.mod_modEq _ _) ((Nat.mod_modEq _ _).pow _)
              _ = result * base ^ exp := by
                  conv_rhs => rw [show exp = 2 * (exp / 2) + 1 by omega]
                  rw [pow_succ, pow_mul, pow_two]; ring
          exact key
        · rw [if_neg hodd,
            ih (exp / 2) hhalf fuel _ _ (by omega) hb2 hres,
            mod_mul_eq_of_le _ _ _ hbase hbase hm]
          have key : result * (base * base % m) ^ (exp / 2) ≡
              result * base ^ exp [MOD m] := by
            calc result * (base * base % m) ^ (exp / 2)
                ≡ result * (base * base) ^ (exp / 2) [MOD m] :=
                  Nat.ModEq.mul (Nat.ModEq.refl _) ((Nat.mod_modEq _ _).pow _)
              _ = result * base ^ exp := by
                  conv_rhs => rw [show exp = 2 * (exp / 2) by omega]
                  rw [pow_mul, pow_two]
          exact key

/-- Helper: for `1 ≤ m ≤ 2 ^ 64`, `mod_pow` computes exact modular
exponentiation. -/
theorem mod_pow_correct (base exp m : Nat) (hm0 : 1 ≤ m) (hm : m ≤ 2 ^ 64) :
    mod_pow base exp m = base ^ exp % m := by
  unfold mod_pow
  by_cases h1 : m = 1
  · subst h1; simp [Nat.mod_one]
  · have hm1 : 1 < m := by omega
    rw [if_neg h1,
      modPowLoop_correct m hm1 hm exp (exp + 1) (base % m) 1
        (Nat.lt_succ_self exp) (Nat.mod_lt _ (by omega)) hm1,
      Nat.one_mul, ← Nat.pow_mod]

/-- C5 counterexample: for `modulus = 2 ^ 127 - 1 > 2 ^ 64` the `u128`
product inside `mod_mul` wraps, and `mod_pow` disagrees with exact
arithmetic: squaring `2 ^ 64` yields `0`, not `2 ^ 128 % (2 ^ 127 - 1) = 2`. -/
theorem C5_mod_pow_counterexample :
    mod_pow (2 ^ 64) 2 (2 ^ 127 - 1) = 0 ∧
      (2 ^ 64) ^ 2 % (2 ^ 127 - 1) = 2 ∧ ¬ (2 ^ 127 - 1 : Nat) < 1 := by
  refine ⟨by decide, by norm_num, by decide⟩

/-- C5 (amended): for every `base`, `exponent` and `1 ≤ modulus ≤ 2 ^ 64`,
`mod_pow base exponent modulus = base ^ exponent % modulus` exactly
(so `modulus = 1` yields `0` and `exponent = 0` with `modulus > 1` yields
`1`); for such moduli every product formed inside `mod_mul` is below
`2 ^ 128`, i.e. the 128-bit width is at least double that of the modulus.
The bound `modulus ≤ 2 ^ 64` is necessary by `C5_mod_pow_counterexample`. -/
theorem C5_mod_pow_exact (base exp m : Nat) (hm0 : 1 ≤ m) (hm : m ≤ 2 ^ 64) :
    mod_pow base exp m = base ^ exp % m ∧
      (m = 1 → mod_pow base exp m = 0) ∧
      (exp = 0 → 1 < m → mod_pow base exp m = 1) ∧
      (∀ a b, a < m → b < m → a * b < 2 ^ 128 ∧ mod_mul a b m = a * b % m) := by
  refine ⟨mod_pow_correct base exp m hm0 hm, ?_, ?_, ?_⟩
  · intro h1; simp [mod_pow, h1]
  · intro h0 hm1
    rw [mod_pow_correct base exp m hm0 hm, h0, pow_zero, Nat.mod_eq_of_lt hm1]
  · intro a b ha hb
    have h := mod_mul_eq_of_le a b m ha hb hm
    refine ⟨?_, h⟩
    have h2 : a * b < m * m := mul_lt_mul_of_lt_of_lt ha hb
    have h3 : m * m ≤ 2 ^ 64 * 2 ^ 64 := Nat.mul_le_mul hm hm
    have h4 : (2:Nat) ^ 64 * 2 ^ 64 = 2 ^ 128 := by norm_num
    omega

/-- Witness for C5: at `base = 3`, `exp = 5`, `m = 7` the hypotheses hold and
`mod_pow 3 5 7 = 3 ^ 5 % 7 = 5`. -/
theorem C5_mod_pow_exact_witness :
    (1 ≤ 7 ∧ (7:Nat) ≤ 2 ^ 64) ∧ mod_pow 3 5 7 = 3 ^ 5 % 7 ∧ mod_pow 3 5 7 = 5 :=
  ⟨⟨by decide, by norm_num⟩, (C5_mod_pow_exact 3 5 7 (by decide) (by norm_num)).1,
    by decide⟩

/-- The extended-Euclid `while r != 0` loop shared by `mod_inverse` (over
`i128`, whose remainder/quotient chain stays nonnegative, so `old_r`/`r`
are modeled as `Nat`) and `mod_inverse_big` (over `BigUint`/`BigInt`): the
two Rust loops are textually the same algorithm at different integer
widths, and the Bézout coefficients are bounded by `max a m`, so for the
fixed-width variant the claim's representability proviso makes the
unbounded model exact.  `r` strictly decreases, so fuel `m + 1` covers
every run started at `r = m`. -/
def egcdLoop : Nat → Nat → Nat → Int → Int → Nat × Int
  | 0, old_r, _, old_s, _ => (old_r, old_s)
  | fuel + 1, old_r, r, old_s, s =>
    if r = 0 then (old_r, old_s)
    else egcdLoop fuel r (old_r % r) s (old_s - ((old_r / r : Nat) : Int) * s)

/-- `fn mod_inverse(a, m)`: extended Euclid; `None` when the final remainder
(the gcd) is not `1`, otherwise the Bézout coefficient normalized into
`[0, m)` by `((old_s % m + m) % m)`. -/
def mod_inverse (a m : Nat) : Option Nat :=
  let p := egcdLoop (m + 1) a m 1 0
  if p.1 ≠ 1 then none
  else some ((p.2 % (m : Int) + m) % m).toNat

/-- `fn mod_inverse_big(a, m)`: the identical extended-Euclid algorithm over
`BigUint`/`BigInt` (exactly the unbounded integers of the model), with the
same `((old_s % m) + m) % m` normalization; `.to_biguint().unwrap()` is the
`Int.toNat` of a provably nonnegative value for `m ≥ 1`. -/
def mod_inverse_big (a m : Nat) : Option Nat :=
  let p := egcdLoop (m + 1) a m 1 0
  if p.1 ≠ 1 then none
  else some ((p.2 % (m : Int) + m) % m).toNat

theorem egcdLoop_step (fuel old_r r : Nat) (s t : Int) (h : r ≠ 0) :
    egcdLoop (fuel + 1) old_r r s t =
      egcdLoop fuel r (old_r % r) t (s - ((old_r / r : Nat) : Int) * t) := by
  simp [egcdLoop, h]

theorem egcdLoop_fst :
    ∀ r, ∀ fuel old_r s t, r < fuel →
      (egcdLoop fuel old_r r s t).1 = Nat.gcd r old_r := by
  intro r
  induction r using Nat.strong_induction_on with
  | _ r ih =>
    intro fuel old_r s t hfuel
    match fuel, hfuel with
    | fuel + 1, hfuel =>
      by_cases h0 : r = 0
      · subst h0; simp [egcdLoop]
      · rw [egcdLoop_step _ _ _ _ _ h0,
          ih (old_r % r) (Nat.mod_lt _ (Nat.pos_of_ne_zero h0)) fuel r t _
            (by have := Nat.mod_lt old_r (Nat.pos_of_ne_zero h0); omega)]
        exact (Nat.gcd_rec r old_r).symm

theorem egcdLoop_snd (A M : Nat) :
    ∀ r : Nat, ∀ fuel old_r : Nat, ∀ s t : Int, r < fuel →
      s * (A : Int) ≡ (old_r : Int) [ZMOD (M : Int)] →
      t * (A : Int) ≡ (r : Int) [ZMOD (M : Int)] →
      (egcdLoop fuel old_r r s t).2 * (A : Int) ≡
        ((egcdLoop fuel old_r r s t).1 : Int) [ZMOD (M : Int)] := by
  intro r
  induction r using Nat.strong_induction_on with
  | _ r ih =>
    intro fuel old_r s t hfuel hs ht
    match fuel, hfuel with
    | fuel + 1, hfuel =>
      by_cases h0 : r = 0
      · subst h0; simpa [egcdLoop] using hs
      · rw [egcdLoop_step _ _ _ _ _ h0]
        refine ih (old_r % r) (Nat.mod_lt _ (Nat.pos_of_ne_zero h0)) fuel r t _
          (by have := Nat.mod_lt old_r (Nat.pos_of_ne_zero h0); omega) ht ?_
        have hmod : ((old_r % r : Nat) : Int) =
            (old_r : Int) - ((old_r / r : Nat) : Int) * (r : Int) := by
          have h4 : (r : Int) * ((old_r / r : Nat) : Int) +
              ((old_r % r : Nat) : Int) = (old_r : Int) := by
            exact_mod_cast Nat.div_add_mod old_r r
          linarith
        calc (s - ((old_r / r : Nat) : Int) * t) * (A : Int)
            = s * A - ((old_r / r : Nat) : Int) * (t * A) := by ring
          _ ≡ (old_r : Int) - ((old_r / r : Nat) : Int) * (r : Int)
              [ZMOD (M : Int)] := Int.ModEq.sub hs (ht.mul_left _)
          _ = ((old_r % r : Nat) : Int) := hmod.symm

/-- Helper: correctness of `mod_inverse` when the gcd is `1`. -/
theorem mod_inverse_eq_some (a m : Nat) (hm : 2 ≤ m) (h : Nat.gcd a m = 1) :
    ∃ x, mod_inverse a m = some x ∧ x < m ∧ a * x % m = 1 := by
  have hmpos : (0 : Int) < (m : Int) := by exact_mod_cast Nat.lt_of_lt_of_le Nat.zero_lt_two hm
  have hg1 : (egcdLoop (m + 1) a m 1 0).1 = 1 := by
    rw [egcdLoop_fst m (m + 1) a 1 0 (Nat.lt_succ_self m), Nat.gcd_comm]
    exact h
  set σ : Int := (egcdLoop (m + 1) a m 1 0).2 with hσdef
  have hσ1 : σ * (a : Int) ≡ 1 [ZMOD (m : Int)] := by
    have h2 := egcdLoop_snd a m m (m + 1) a 1 0 (Nat.lt_succ_self m)
      (by rw [one_mul]) (by show (0 : Int) * a % m = (m : Int) % m; simp)
    rw [hg1] at h2
    exact_mod_cast h2
  set y : Int := (σ % (m : Int) + m) % m with hydef
  have hy_nonneg : 0 ≤ y := Int.emod_nonneg _ (by omega)
  have hy_lt : y < m := Int.emod_lt_of_pos _ hmpos
  have hy_eq : y = σ % m := by
    rw [hydef, show σ % (m : Int) + m = σ % m + m * 1 by ring,
      Int.add_mul_emod_self_left]
    exact Int.emod_emod_of_dvd σ dvd_rfl
  have hy_modeq : y ≡ σ [ZMOD (m : Int)] := by
    show y % m = σ % m
    rw [hy_eq, Int.emod_emod_of_dvd σ dvd_rfl]
  refine ⟨y.toNat, ?_, ?_, ?_⟩
  · show (if (egcdLoop (m + 1) a m 1 0).1 ≠ 1 then none
      else some (((egcdLoop (m + 1) a m 1 0).2 % (m : Int) + m) % m).toNat) =
        some y.toNat
    rw [hg1, if_neg (show ¬((1:Nat) ≠ 1) by simp)]
  · have : (y.toNat : Int) = y := Int.toNat_of_nonneg hy_nonneg
    omega
  · have hax : ((a : Int) * y) % m = 1 := by
      have hmodeq : ((a : Int) * y) ≡ 1 [ZMOD (m : Int)] := by
        calc (a : Int) * y ≡ (a : Int) * σ [ZMOD (m : Int)] := hy_modeq.mul_left _
          _ = σ * a := by ring
          _ ≡ 1 [ZMOD (m : Int)] := hσ1
      have h1m : (1 : Int) % m = 1 := Int.emod_eq_of_lt (by omega) (by exact_mod_cast hm)
      rw [Int.ModEq] at hmodeq
      rw [hmodeq, h1m]
    have hz : ((a * y.toNat % m : Nat) : Int) = 1 := by
      push_cast [Int.toNat_of_nonneg hy_nonneg]
      exact hax
    exact_mod_cast hz

/-- Helper: `mod_inverse` fails exactly when the gcd is not `1`. -/
theorem mod_inverse_eq_none (a m : Nat) (h : Nat.gcd a m ≠ 1) :
    mod_inverse a m = none := by
  have hfst : (egcdLoop (m + 1) a m 1 0).1 = Nat.gcd m a :=
    egcdLoop_fst m (m + 1) a 1 0 (Nat.lt_succ_self m)
  rw [mod_inverse, hfst]
  rw [Nat.gcd_comm] at h
  simp [h]

theorem mod_inverse_big_eq (a m : Nat) : mod_inverse_big a m = mod_inverse a m :=
  rfl

/-- C8: for every `a` and `m ≥ 2`, `mod_inverse a m` is `some x` with
`x < m` and `a * x % m = 1` exactly when `gcd a m = 1` and `none`
otherwise, and `mod_inverse_big` satisfies the same contract (the two
functions run the identical algorithm; the fixed-width one is modeled over
unbounded integers, which is exact under the claim's representability
proviso since all Bézout intermediates are bounded by `max a m`). -/
theorem C8_mod_inverse_contract (a m : Nat) (hm : 2 ≤ m) :
    ((Nat.gcd a m = 1 → ∃ x, mod_inverse a m = some x ∧ x < m ∧ a * x % m = 1) ∧
      (Nat.gcd a m ≠ 1 → mod_inverse a m = none)) ∧
    ((Nat.gcd a m = 1 → ∃ x, mod_inverse_big a m = some x ∧ x < m ∧ a * x % m = 1) ∧
      (Nat.gcd a m ≠ 1 → mod_inverse_big a m = none)) := by
  refine ⟨⟨mod_inverse_eq_some a m hm, mod_inverse_eq_none a m⟩, ?_, ?_⟩
  · rw [mod_inverse_big_eq]; exact mod_inverse_eq_some a m hm
  · rw [mod_inverse_big_eq]; exact mod_inverse_eq_none a m

/-- Witness for C8 at `a = 3`, `m = 7` (coprime) — the contract instance. -/
theorem C8_mod_inverse_contract_witness :
    (2 ≤ 7) ∧
    (((Nat.gcd 3 7 = 1 → ∃ x, mod_inverse 3 7 = some x ∧ x < 7 ∧ 3 * x % 7 = 1) ∧
      (Nat.gcd 3 7 ≠ 1 → mod_inverse 3 7 = none)) ∧
    ((Nat.gcd 3 7 = 1 → ∃ x, mod_inverse_big 3 7 = some x ∧ x < 7 ∧ 3 * x % 7 = 1) ∧
      (Nat.gcd 3 7 ≠ 1 → mod_inverse_big 3 7 = none))) :=
  ⟨by decide, C8_mod_inverse_contract 3 7 (by decide)⟩

/-! ### Key encoding boundary (`DhKey`, `DhCrackError`, hex codec) -/

/-- The variants of `hex::FromHexError` that `hex::decode` can produce. -/
inductive FromHexError
  | invalidHexCharacter (c : Char) (index : Nat)
  | oddLength
  deriving DecidableEq

/-- `enum DhCrackError` from the source. -/
inductive DhCrackError
  | invalidHex (e : FromHexError)
  | invalidKeyLength (got : Nat)
  | zeroPublicKey
  | discreteLogFailed
  deriving DecidableEq

deriving instance DecidableEq for Except

/-- `struct DhKey { value: u128 }`. -/
structure DhKey where
  value : Nat
  deriving DecidableEq

/-- The nibble value of a hex character, as `hex::decode` accepts it
(`0-9`, `a-f`, `A-F`). -/
def hexVal (c : Char) : Option Nat :=
  if '0' ≤ c ∧ c ≤ '9' then some (c.toNat - '0'.toNat)
  else if 'a' ≤ c ∧ c ≤ 'f' then some (c.toNat - 'a'.toNat + 10)
  else if 'A' ≤ c ∧ c ≤ 'F' then some (c.toNat - 'A'.toNat + 10)
  else none

/-- Pairwise decoding loop of `hex::decode`; reports the first invalid
character together with its index. -/
def hexDecodeAux : List Char → Nat → Except FromHexError (List Nat)
  | [], _ => .ok []
  | c1 :: c2 :: rest, idx =>
    match hexVal c1 with
    | none => .error (.invalidHexCharacter c1 idx)
    | some v1 =>
      match hexVal c2 with
      | none => .error (.invalidHexCharacter c2 (idx + 1))
      | some v2 => (hexDecodeAux rest (idx + 2)).map (fun bs => (v1 * 16 + v2) :: bs)
  | [_], _ => .error .oddLength

/-- `hex::decode`: odd-length input is rejected up front, then bytes are
decoded two characters at a time. -/
def hexDecode (s : List Char) : Except FromHexError (List Nat) :=
  if s.length % 2 ≠ 0 then .error .oddLength else hexDecodeAux s 0

/-- `u64::from_le_bytes`: little-endian byte list to integer. -/
def leBytesToNat : List Nat → Nat
  | [] => 0
  | b :: rest => b + 256 * leBytesToNat rest

/-- `u64::to_le_bytes` (first argument is the byte count, `8` for `u64`). -/
def natToLeBytes : Nat → Nat → List Nat
  | 0, _ => []
  | k + 1, v => v % 256 :: natToLeBytes k (v / 256)

/-- The lowercase hex digit characters used by `hex::encode`. -/
def hexDigit (n : Nat) : Char :=
  if n < 10 then Char.ofNat ('0'.toNat + n) else Char.ofNat ('a'.toNat + (n - 10))

/-- `hex::encode`: each byte becomes high nibble then low nibble, lowercase. -/
def hexEncode : List Nat → List Char
  | [] => []
  | b :: rest => hexDigit (b / 16 % 16) :: hexDigit (b % 16) :: hexEncode rest

/-- `DhKey::from_bytes_le`. -/
def DhKey.from_bytes_le (bytes : List Nat) : Except DhCrackError DhKey :=
  if bytes.length ≠ 8 then .error (.invalidKeyLength bytes.length)
  else
    let value := leBytesToNat bytes
    if value = 0 then .error .zeroPublicKey else .ok ⟨value⟩

/-- `DhKey::from_hex_le`: hex-decode (errors map into `InvalidHex` via the
`#[from]` conversion), then `from_bytes_le`. -/
def DhKey.from_hex_le (s : List Char) : Except DhCrackError DhKey :=
  match hexDecode s with
  | .error e => .error (.invalidHex e)
  | .ok bytes => DhKey.from_bytes_le bytes

/-- `DhKey::from_u64` (the argument is a `u64`, so `value < 2 ^ 64` is a
type invariant of the source). -/
def DhKey.from_u64 (value : Nat) : Except DhCrackError DhKey :=
  if value = 0 then .error .zeroPublicKey else .ok ⟨value⟩

/-- `DhKey::to_bytes_le`: `(self.value as u64).to_le_bytes()`; the `as u64`
cast truncates modulo `2 ^ 64`. -/
def DhKey.to_bytes_le (k : DhKey) : List Nat :=
  natToLeBytes 8 (k.value % 2 ^ 64)

/-- `DhKey::to_hex_le`. -/
def DhKey.to_hex_le (k : DhKey) : List Char :=
  hexEncode k.to_bytes_le

/-- `DhKey::as_u64`. -/
def DhKey.as_u64 (k : DhKey) : Nat := k.value % 2 ^ 64

/-- Helper: an all-zero byte list decodes to the integer `0`. -/
theorem leBytesToNat_zero : ∀ bytes : List Nat, (∀ b ∈ bytes, b = 0) →
    leBytesToNat bytes = 0 := by
  intro bytes
  induction bytes with
  | nil => intro _; rfl
  | cons b rest ih =>
    intro h
    have hb : b = 0 := h b (List.mem_cons_self b rest)
    have hr : leBytesToNat rest = 0 := ih fun x hx => h x (List.mem_cons_of_mem b hx)
    simp [leBytesToNat, hb, hr]

/-- C9: decoding errors are exactly as specified — wrong length yields
`InvalidKeyLength(len)`, eight zero bytes yield `ZeroPublicKey`, invalid
hex text yields `InvalidHex`, and the all-zero hex string yields
`ZeroPublicKey`; in each case an error (not a key) is returned, so the
solver core is never invoked. -/
theorem C9_key_decode_errors :
    (∀ bytes : List Nat, bytes.length ≠ 8 →
        DhKey.from_bytes_le bytes = .error (.invalidKeyLength bytes.length)) ∧
    (∀ bytes : List Nat, bytes.length = 8 → (∀ b ∈ bytes, b = 0) →
        DhKey.from_bytes_le bytes = .error .zeroPublicKey) ∧
    (∀ s : List Char, ∀ e, hexDecode s = .error e →
        DhKey.from_hex_le s = .error (.invalidHex e)) ∧
    DhKey.from_hex_le (List.replicate 16 '0') = .error .zeroPublicKey := by
  refine ⟨?_, ?_, ?_, by decide⟩
  · intro bytes h
    simp [DhKey.from_bytes_le, h]
  · intro bytes hlen hzero
    simp [DhKey.from_bytes_le, hlen, leBytesToNat_zero bytes hzero]
  · intro s e h
    simp [DhKey.from_hex_le, h]

/-- Witness for C9: concrete 7-byte, 9-byte, all-zero and non-hex inputs. -/
theorem C9_key_decode_errors_witness :
    DhKey.from_bytes_le (List.replicate 7 0) = .error (.invalidKeyLength 7) ∧
    DhKey.from_bytes_le (List.replicate 9 0) = .error (.invalidKeyLength 9) ∧
    DhKey.from_bytes_le (List.replicate 8 0) = .error .zeroPublicKey ∧
    DhKey.from_hex_le ['z', 'z'] = .error (.invalidHex (.invalidHexCharacter 'z' 0)) :=
  ⟨C9_key_decode_errors.1 _ (by decide), C9_key_decode_errors.1 _ (by decide),
    C9_key_decode_errors.2.1 _ (by decide) (by decide),
    C9_key_decode_errors.2.2.1 _ _ (by decide)⟩

/-- Helper: remainder decomposition `a % (b * c) = a % b + b * (a / b % c)`. -/
theorem mod_mul_decomp (a b c : Nat) (hb : 0 < b) :
    a % (b * c) = a % b + b * (a / b % c) := by
  rcases Nat.eq_zero_or_pos c with hc | hc
  · subst hc
    simp only [Nat.mul_zero, Nat.mod_zero]
    exact (Nat.mod_add_div a b).symm
  · have key : a = (a % b + b * (a / b % c)) + (b * c) * (a / b / c) := by
      conv_lhs => rw [← Nat.div_add_mod a b]
      conv_lhs => rw [← Nat.div_add_mod (a / b) c]
      ring
    have hr : a % b + b * (a / b % c) < b * c := by
      have h1 : a % b < b := Nat.mod_lt _ hb
      have h2 : a / b % c < c := Nat.mod_lt _ hc
      calc a % b + b * (a / b % c) < b + b * (a / b % c) := by omega
        _ = b * (1 + a / b % c) := by ring
        _ ≤ b * c := Nat.mul_le_mul_left b (by omega)
    conv_lhs => rw [key]
    rw [Nat.add_mul_mod_self_left, Nat.mod_eq_of_lt hr]

/-- Helper: byte/integer little-endian round trip. -/
theorem leBytesToNat_natToLeBytes : ∀ k v : Nat,
    leBytesToNat (natToLeBytes k v) = v % 256 ^ k := by
  intro k
  induction k with
  | zero => intro v; simp [natToLeBytes, leBytesToNat, Nat.mod_one]
  | succ k ih =>
    intro v
    show (v % 256) + 256 * leBytesToNat (natToLeBytes k (v / 256)) = v % 256 ^ (k + 1)
    rw [ih (v / 256), pow_succ, mul_comm (256 ^ k) 256,
      mod_mul_decomp v 256 (256 ^ k) (by norm_num)]

theorem natToLeBytes_length : ∀ k v : Nat, (natToLeBytes k v).length = k := by
  intro k
  induction k with
  | zero => intro v; rfl
  | succ k ih => intro v; simp [natToLeBytes, ih]

theorem natToLeBytes_lt : ∀ k v : Nat, ∀ b ∈ natToLeBytes k v, b < 256 := by
  intro k
  induction k with
  | zero => intro v b hb; simp [natToLeBytes] at hb
  | succ k ih =>
    intro v b hb
    rcases List.mem_cons.mp hb with h | h
    · subst h; exact Nat.mod_lt _ (by norm_num)
    · exact ih _ b h

/-- Helper: the sixteen hex digits decode back to their values and are
lowercase hex characters. -/
theorem hexVal_hexDigit : ∀ n < 16, hexVal (hexDigit n) = some n ∧
    (('0' ≤ hexDigit n ∧ hexDigit n ≤ '9') ∨
      ('a' ≤ hexDigit n ∧ hexDigit n ≤ 'f')) := by decide

/-- Helper: hex-encoding then decoding a byte list (all bytes `< 256`) is
the identity; the auxiliary index does not affect success. -/
theorem hexDecodeAux_hexEncode : ∀ bytes : List Nat, (∀ b ∈ bytes, b < 256) →
    ∀ idx, hexDecodeAux (hexEncode bytes) idx = .ok bytes := by
  intro bytes
  induction bytes with
  | nil => intro _ idx; rfl
  | cons b rest ih =>
    intro h idx
    have hb : b < 256 := h b (List.mem_cons_self b rest)
    have h1 := (hexVal_hexDigit (b / 16 % 16) (by omega)).1
    have h2 := (hexVal_hexDigit (b % 16) (by omega)).1
    show hexDecodeAux (hexDigit (b / 16 % 16) :: hexDigit (b % 16) :: hexEncode rest)
        idx = .ok (b :: rest)
    rw [hexDecodeAux, h1, h2, ih (fun x hx => h x (List.mem_cons_of_mem b hx)) (idx + 2)]
    have hbeq : b / 16 % 16 * 16 + b % 16 = b := by omega
    simp [Except.map, hbeq]

theorem hexEncode_length : ∀ bytes : List Nat,
    (hexEncode bytes).length = 2 * bytes.length := by
  intro bytes
  induction bytes with
  | nil => rfl
  | cons b rest ih => simp [hexEncode, ih]; omega

/-- C10: for every nonzero `u64` value `v`, `from_u64` succeeds and both the
byte and the hex round trip reproduce the same key; `to_hex_le` is exactly
16 lowercase hex characters. -/
theorem C10_key_roundtrip (v : Nat) (hv : v ≠ 0) (hv64 : v < 2 ^ 64) :
    ∃ k : DhKey, DhKey.from_u64 v = .ok k ∧ k.value = v ∧
      DhKey.from_bytes_le k.to_bytes_le = .ok k ∧
      DhKey.from_hex_le k.to_hex_le = .ok k ∧
      k.to_hex_le.length = 16 ∧
      ∀ c ∈ k.to_hex_le, ('0' ≤ c ∧ c ≤ '9') ∨ ('a' ≤ c ∧ c ≤ 'f') := by
  refine ⟨⟨v⟩, by simp [DhKey.from_u64, hv], rfl, ?_, ?_, ?_, ?_⟩
  · have hlen : (DhKey.to_bytes_le ⟨v⟩).length = 8 := natToLeBytes_length 8 _
    have hval : leBytesToNat (DhKey.to_bytes_le ⟨v⟩) = v := by
      show leBytesToNat (natToLeBytes 8 (v % 2 ^ 64)) = v
      rw [leBytesToNat_natToLeBytes, Nat.mod_eq_of_lt hv64,
        show (256 : Nat) ^ 8 = 2 ^ 64 by norm_num, Nat.mod_eq_of_lt hv64]
    simp [DhKey.from_bytes_le, hlen, hval, hv]
  · have hdec : hexDecode (DhKey.to_hex_le ⟨v⟩) = .ok (DhKey.to_bytes_le ⟨v⟩) := by
      show hexDecode (hexEncode (DhKey.to_bytes_le ⟨v⟩)) = .ok (DhKey.to_bytes_le ⟨v⟩)
      rw [hexDecode, if_neg (by rw [hexEncode_length]; omega)]
      exact hexDecodeAux_hexEncode _ (natToLeBytes_lt 8 _) 0
    have hlen : (DhKey.to_bytes_le ⟨v⟩).length = 8 := natToLeBytes_length 8 _
    have hval : leBytesToNat (DhKey.to_bytes_le ⟨v⟩) = v := by
      show leBytesToNat (natToLeBytes 8 (v % 2 ^ 64)) = v
      rw [leBytesToNat_natToLeBytes, Nat.mod_eq_of_lt hv64,
        show (256 : Nat) ^ 8 = 2 ^ 64 by norm_num, Nat.mod_eq_of_lt hv64]
    simp [DhKey.from_hex_le, hdec, DhKey.from_bytes_le, hlen, hval, hv]
  · show (hexEncode (natToLeBytes 8 (v % 2 ^ 64))).length = 16
    rw [hexEncode_length, natToLeBytes_length]
  · intro c hc
    have : ∀ bytes : List Nat, (∀ b ∈ bytes, b < 256) →
        ∀ x ∈ hexEncode bytes, ('0' ≤ x ∧ x ≤ '9') ∨ ('a' ≤ x ∧ x ≤ 'f') := by
      intro bytes
      induction bytes with
      | nil => intro _ x hx; simp [hexEncode] at hx
      | cons b rest ih =>
        intro hlt x hx
        have hb : b < 256 := hlt b (List.mem_cons_self b rest)
        rcases List.mem_cons.mp hx with h | hx2
        · exact h ▸ (hexVal_hexDigit (b / 16 % 16) (by omega)).2
        · rcases List.mem_cons.mp hx2 with h | hx3
          · exact h ▸ (hexVal_hexDigit (b % 16) (by omega)).2
          · exact ih (fun y hy => hlt y (List.mem_cons_of_mem b hy)) x hx3
    exact this _ (natToLeBytes_lt 8 _) c hc

/-- Witness for C10 at `v = 1`. -/
theorem C10_key_roundtrip_witness :
    (1 : Nat) ≠ 0 ∧ (1 : Nat) < 2 ^ 64 ∧
    ∃ k : DhKey, DhKey.from_u64 1 = .ok k ∧ k.value = 1 ∧
      DhKey.from_bytes_le k.to_bytes_le = .ok k ∧
      DhKey.from_hex_le k.to_hex_le = .ok k ∧
      k.to_hex_le.length = 16 ∧
      ∀ c ∈ k.to_hex_le, ('0' ≤ c ∧ c ≤ '9') ∨ ('a' ≤ c ∧ c ≤ 'f') :=
  ⟨by decide, by norm_num, C10_key_roundtrip 1 (by decide) (by norm_num)⟩

/-! ### Trial-division factorization (`factor_order`) -/

/-- The inner `while n.is_multiple_of(d) { n /= d; exp += 1 }` loop of
`factor_order`: divide out `d` completely, counting the exponent.  `n`
shrinks by a factor `d ≥ 2` each step, so fuel `n` suffices. -/
def divLoop : Nat → Nat → Nat → Nat × Nat
  | 0, n, _ => (n, 0)
  | fuel + 1, n, d =>
    if n % d = 0 then
      ((divLoop fuel (n / d) d).1, (divLoop fuel (n / d) d).2 + 1)
    else (n, 0)

/-- The outer `while d * d <= n` loop of `factor_order`, fueled, with the
trailing `if n > 1 { factors.push((n, 1)) }` folded into every exit path.
The `u128` product `d * d` cannot wrap here: the loop keeps `d * d ≤ n`,
so `d < 2 ^ 64` as long as `n < (2 ^ 64 - 1) ^ 2`, far above any group
order the program can construct; the comparison is therefore modeled
exactly.  `d` only increments while `d ≤ n`, so fuel `n + 2 - d` bounds
the remaining iterations. -/
def factorLoop : Nat → Nat → Nat → List (Nat × Nat)
  | 0, n, _ => if 1 < n then [(n, 1)] else []
  | fuel + 1, n, d =>
    if d * d ≤ n then
      if n % d = 0 then
        (d, (divLoop n n d).2) :: factorLoop fuel (divLoop n n d).1 (d + 1)
      else factorLoop fuel n (d + 1)
    else if 1 < n then [(n, 1)] else []

/-- `fn factor_order(n)`: trial division from `d = 2`. -/
def factor_order (n : Nat) : List (Nat × Nat) := factorLoop (n + 2) n 2

theorem divLoop_spec : ∀ fuel n d, 2 ≤ d → 1 ≤ n → n ≤ fuel →
    n = d ^ (divLoop fuel n d).2 * (divLoop fuel n d).1 ∧
    ¬ d ∣ (divLoop fuel n d).1 ∧ 1 ≤ (divLoop fuel n d).1 ∧
    (n % d = 0 → 1 ≤ (divLoop fuel n d).2) := by
  intro fuel
  induction fuel with
  | zero => intro n d _ hn hfuel; omega
  | succ fuel ih =>
    intro n d hd hn hfuel
    by_cases hdvd : n % d = 0
    · have hdvd2 : d ∣ n := Nat.dvd_of_mod_eq_zero hdvd
      have hndle : d ≤ n := Nat.le_of_dvd (by omega) hdvd2
      have hq1 : 1 ≤ n / d := (Nat.one_le_div_iff (by omega)).mpr hndle
      have hqlt : n / d < n := Nat.div_lt_self (by omega) (by omega)
      obtain ⟨h1, h2, h3, _⟩ := ih (n / d) d hd hq1 (by omega)
      have hstep : divLoop (fuel + 1) n d =
          ((divLoop fuel (n / d) d).1, (divLoop fuel (n / d) d).2 + 1) := by
        simp [divLoop, hdvd]
      refine ⟨?_, ?_, ?_, ?_⟩
      · rw [hstep]
        show n = d ^ ((divLoop fuel (n / d) d).2 + 1) * (divLoop fuel (n / d) d).1
        rw [pow_succ]
        calc n = d * (n / d) := (Nat.mul_div_cancel' hdvd2).symm
          _ = d * (d ^ (divLoop fuel (n / d) d).2 * (divLoop fuel (n / d) d).1) := by
              rw [← h1]
          _ = d ^ (divLoop fuel (n / d) d).2 * d * (divLoop fuel (n / d) d).1 := by
              ring
      · rw [hstep]; exact h2
      · rw [hstep]; exact h3
      · intro _; rw [hstep]; omega
    · have hstep : divLoop (fuel + 1) n d = (n, 0) := by simp [divLoop, hdvd]
      rw [hstep]
      refine ⟨by simp, ?_, by omega, fun hc => absurd hc hdvd⟩
      intro hc
      exact hdvd (Nat.mod_eq_zero_of_dvd hc)

/-- Helper: properties of the `if n > 1 { factors.push((n, 1)) }` finalizer:
when `n` has no divisor in `[2, d)` and `n < d * d`, a remaining `n > 1` is
prime and at least `d`. -/
theorem factorFinalize_spec (n d : Nat) (hn : 1 ≤ n) (hd : 2 ≤ d)
    (hdd : n < d * d) (hnd : ∀ k, 2 ≤ k → k < d → ¬ k ∣ n) :
    (((if 1 < n then [(n, 1)] else [] : List (Nat × Nat)).map
        fun qe => qe.1 ^ qe.2).prod = n ∧
      (∀ qe ∈ (if 1 < n then [(n, 1)] else [] : List (Nat × Nat)),
        Nat.Prime qe.1 ∧ 1 ≤ qe.2 ∧ d ≤ qe.1) ∧
      List.Pairwise (fun a b : Nat × Nat => a.1 < b.1)
        (if 1 < n then [(n, 1)] else [])) := by
  by_cases h1 : 1 < n
  · have hprime : Nat.Prime n := by
      rw [Nat.prime_def_lt]
      refine ⟨h1, fun m hm hdvd => ?_⟩
      by_contra hm1
      have hm0 : m ≠ 0 := fun h => by
        subst h
        exact absurd (Nat.eq_zero_of_zero_dvd hdvd) (by omega)
      have hm2 : 2 ≤ m := by omega
      rcases Nat.lt_or_ge m d with hmd | hmd
      · exact hnd m hm2 hmd hdvd
      · obtain ⟨c, hc⟩ := hdvd
        have hcdvd : c ∣ n := ⟨m, by rw [hc]; ring⟩
        have hc0 : c ≠ 0 := fun h => by subst h; omega
        have hc1 : c ≠ 1 := fun h => by subst h; omega
        have hcd : c < d := by
          have hcle : c ≤ n / m := by
            rw [hc, Nat.mul_div_cancel_left c (by omega)]
          have h3 : n / m ≤ n / d := Nat.div_le_div_left hmd (by omega)
          have h4 : n / d < d := (Nat.div_lt_iff_lt_mul (by omega)).mpr hdd
          omega
        exact hnd c (by omega) hcd hcdvd
    have hnged : d ≤ n := by
      by_contra hlt
      exact hnd n (by omega) (by omega) dvd_rfl
    simp only [if_pos h1]
    refine ⟨by simp [pow_one], ?_, by simp⟩
    intro qe hqe
    have : qe = (n, 1) := by simpa using hqe
    subst this
    exact ⟨hprime, le_refl 1, hnged⟩
  · have hn1 : n = 1 := by omega
    simp only [if_neg h1]
    exact ⟨by simp [hn1], by simp, by simp⟩

/-- Helper: full invariant of the trial-division loop: starting at any `d ≥ 2`
such that `n ≥ 1` has no divisor in `[2, d)` and given fuel at least
`n + 2 - d`, the output factors multiply back to `n`, every listed base is
a prime `≥ d` with exponent `≥ 1`, and the primes are strictly
increasing. -/
theorem factorLoop_spec : ∀ fuel n d, 2 ≤ d → 1 ≤ n → n + 2 ≤ fuel + d →
    (∀ k, 2 ≤ k → k < d → ¬ k ∣ n) →
    (((factorLoop fuel n d).map fun qe => qe.1 ^ qe.2).prod = n ∧
      (∀ qe ∈ factorLoop fuel n d, Nat.Prime qe.1 ∧ 1 ≤ qe.2 ∧ d ≤ qe.1) ∧
      List.Pairwise (fun a b : Nat × Nat => a.1 < b.1) (factorLoop fuel n d)) := by
  intro fuel
  induction fuel with
  | zero =>
    intro n d hd hn hfuel hnd
    have hled : d ≤ d * d := Nat.le_mul_of_pos_left d (by omega)
    have hdd : n < d * d := by omega
    show ((((if 1 < n then [(n, 1)] else [] : List (Nat × Nat))).map
        fun qe => qe.1 ^ qe.2).prod = n ∧ _ ∧ _)
    exact factorFinalize_spec n d hn hd hdd hnd
  | succ fuel ih =>
    intro n d hd hn hfuel hnd
    by_cases hloop : d * d ≤ n
    · by_cases hdvd : n % d = 0
      · have hdvd2 : d ∣ n := Nat.dvd_of_mod_eq_zero hdvd
        obtain ⟨heq, hnotdvd, hpos, hexp⟩ := divLoop_spec n n d hd hn (le_refl n)
        have he1 : 1 ≤ (divLoop n n d).2 := hexp hdvd
        have hde : 2 ≤ d ^ (divLoop n n d).2 := by
          calc 2 ≤ d := hd
            _ = d ^ 1 := (pow_one d).symm
            _ ≤ d ^ (divLoop n n d).2 := Nat.pow_le_pow_right (by omega) he1
        have hn2lt : (divLoop n n d).1 < n := by
          have h5 : 2 * (divLoop n n d).1 ≤ d ^ (divLoop n n d).2 * (divLoop n n d).1 :=
            Nat.mul_le_mul_right _ hde
          omega
        have hstep : factorLoop (fuel + 1) n d =
            (d, (divLoop n n d).2) :: factorLoop fuel (divLoop n n d).1 (d + 1) := by
          simp [factorLoop, hloop, hdvd]
        have hdprime : Nat.Prime d := by
          rw [Nat.prime_def_lt]
          refine ⟨hd, fun m hm hmd => ?_⟩
          by_contra hm1
          have hm0 : m ≠ 0 := fun h => by
            subst h
            exact absurd (Nat.eq_zero_of_zero_dvd hmd) (by omega)
          exact hnd m (by omega) hm (hmd.trans hdvd2)
        have hn2dvd : (divLoop n n d).1 ∣ n := by
          refine ⟨d ^ (divLoop n n d).2, ?_⟩
          conv_lhs => rw [heq]
          ring
        have hinv2 : ∀ k, 2 ≤ k → k < d + 1 → ¬ k ∣ (divLoop n n d).1 := by
          intro k hk2 hkd hkdvd
          rcases Nat.lt_or_ge k d with h | h
          · exact hnd k hk2 h (hkdvd.trans hn2dvd)
          · have hkd2 : k = d := by omega
            subst hkd2
            exact hnotdvd hkdvd
        obtain ⟨ih1, ih2, ih3⟩ := ih (divLoop n n d).1 (d + 1) (by omega) hpos
          (by omega) hinv2
        rw [hstep]
        refine ⟨?_, ?_, ?_⟩
        · simp only [List.map_cons, List.prod_cons, ih1]
          exact heq.symm
        · intro qe hqe
          rcases List.mem_cons.mp hqe with h | h
          · subst h
            exact ⟨hdprime, he1, le_refl d⟩
          · obtain ⟨hp, he, hge⟩ := ih2 qe h
            exact ⟨hp, he, by omega⟩
        · refine List.Pairwise.cons ?_ ih3
          intro b hb
          have := (ih2 b hb).2.2
          show d < b.1
          omega
      · have hstep : factorLoop (fuel + 1) n d = factorLoop fuel n (d + 1) := by
          simp [factorLoop, hloop, hdvd]
        have hinv2 : ∀ k, 2 ≤ k → k < d + 1 → ¬ k ∣ n := by
          intro k hk2 hkd hkdvd
          rcases Nat.lt_or_ge k d with h | h
          · exact hnd k hk2 h hkdvd
          · have hkd2 : k = d := by omega
            subst hkd2
            exact hdvd (Nat.mod_eq_zero_of_dvd hkdvd)
        obtain ⟨ih1, ih2, ih3⟩ := ih n (d + 1) (by omega) hn (by omega) hinv2
        rw [hstep]
        refine ⟨ih1, ?_, ih3⟩
        intro qe hqe
        obtain ⟨hp, he, hge⟩ := ih2 qe hqe
        exact ⟨hp, he, by omega⟩
    · have hstep : factorLoop (fuel + 1) n d =
          if 1 < n then [(n, 1)] else [] := by
        simp [factorLoop, hloop]
      rw [hstep]
      exact factorFinalize_spec n d hn hd (by omega) hnd

/-- C7: for every `n ≥ 2`, `factor_order n` lists `(prime, exponent)` pairs
in strictly increasing prime order, every base is prime and pairwise
distinct, every exponent is `≥ 1`, and the product of the prime powers is
exactly `n`. -/
theorem C7_factor_order_correct (n : Nat) (hn : 2 ≤ n) :
    ((factor_order n).map fun qe => qe.1 ^ qe.2).prod = n ∧
    (∀ qe ∈ factor_order n, Nat.Prime qe.1 ∧ 1 ≤ qe.2) ∧
    List.Pairwise (fun a b : Nat × Nat => a.1 < b.1) (factor_order n) ∧
    List.Pairwise (fun a b : Nat × Nat => a.1 ≠ b.1) (factor_order n) := by
  obtain ⟨h1, h2, h3⟩ := factorLoop_spec (n + 2) n 2 (le_refl 2) (by omega)
    (by omega) (fun k hk2 hk2' => absurd (by omega : (2:Nat) ≤ 1) (by omega))
  exact ⟨h1, fun qe hqe => ⟨(h2 qe hqe).1, (h2 qe hqe).2.1⟩, h3,
    h3.imp Nat.ne_of_lt⟩

/-- Witness for C7 at `n = 12`: the hypotheses hold and additionally the
concrete output is `[(2, 2), (3, 1)]`. -/
theorem C7_factor_order_correct_witness :
    (2 ≤ 12 ∧ factor_order 12 = [(2, 2), (3, 1)]) ∧
    (((factor_order 12).map fun qe => qe.1 ^ qe.2).prod = 12 ∧
      (∀ qe ∈ factor_order 12, Nat.Prime qe.1 ∧ 1 ≤ qe.2) ∧
      List.Pairwise (fun a b : Nat × Nat => a.1 < b.1) (factor_order 12) ∧
      List.Pairwise (fun a b : Nat × Nat => a.1 ≠ b.1) (factor_order 12)) :=
  ⟨⟨by decide, by decide⟩, C7_factor_order_correct 12 (by decide)⟩

/-! ### Chinese remainder combiner -/

/-- The accumulation loop of `chinese_remainder_theorem`: for each pair
`(r_i, m_i)` it computes `p_i = prod / m_i`, takes its inverse modulo
`m_i` via `mod_inverse_big` (failing the whole call on `None`), and adds
`r_i * p_i * inv` to the running sum. -/
def crtLoop (prod : Nat) : List (Nat × Nat) → Nat → Option Nat
  | [], sum => some sum
  | (r, mi) :: rest, sum =>
    match mod_inverse_big (prod / mi) mi with
    | none => none
    | some inv => crtLoop prod rest (sum + r * (prod / mi) * inv)

/-- `fn chinese_remainder_theorem(residues, moduli)`: `prod` is the product
of all moduli; the final answer is `sum % prod`. -/
def chinese_remainder_theorem (residues moduli : List Nat) : Option Nat :=
  (crtLoop moduli.prod (residues.zip moduli) 0).map (fun s => s % moduli.prod)

/-- Helper: a value coprime to every member of a list is coprime to its
product. -/
theorem coprime_list_prod (a : Nat) : ∀ l : List Nat,
    (∀ b ∈ l, Nat.Coprime a b) → Nat.Coprime a l.prod := by
  intro l
  induction l with
  | nil => intro _; simp [Nat.coprime_one_right]
  | cons b rest ih =>
    intro h
    rw [List.prod_cons]
    exact Nat.Coprime.mul_right (h b (List.mem_cons_self b rest))
      (ih fun x hx => h x (List.mem_cons_of_mem b hx))

/-- Helper: in a pairwise-coprime list of positive numbers, each member
divides the product and is coprime to the complementary cofactor. -/
theorem coprime_div_prod : ∀ l : List Nat, List.Pairwise Nat.Coprime l →
    (∀ x ∈ l, 1 ≤ x) → ∀ m ∈ l, m ∣ l.prod ∧ Nat.Coprime m (l.prod / m) := by
  intro l
  induction l with
  | nil => intro _ _ m hm; simp at hm
  | cons a rest ih =>
    intro hpw hpos m hm
    have hane : 1 ≤ a := hpos a (List.mem_cons_self a rest)
    rcases List.mem_cons.mp hm with h | h
    · subst h
      rw [List.prod_cons, Nat.mul_div_cancel_left _ (by omega)]
      exact ⟨Dvd.intro _ rfl, coprime_list_prod m rest
        (fun b hb => (List.pairwise_cons.mp hpw).1 b hb)⟩
    · have hmd : m ∣ rest.prod := (ih (List.pairwise_cons.mp hpw).2
        (fun x hx => hpos x (List.mem_cons_of_mem a hx)) m h).1
      have hcop : Nat.Coprime m (rest.prod / m) := (ih (List.pairwise_cons.mp hpw).2
        (fun x hx => hpos x (List.mem_cons_of_mem a hx)) m h).2
      have hca : Nat.Coprime m a := ((List.pairwise_cons.mp hpw).1 m h).symm
      rw [List.prod_cons]
      refine ⟨hmd.mul_left a, ?_⟩
      rw [Nat.mul_div_assoc a hmd]
      exact Nat.Coprime.mul_right hca hcop

/-- Helper: pairwise relations on the second components lift to `zip`. -/
theorem pairwise_zip_right {R : Nat → Nat → Prop} :
    ∀ l1 l2 : List Nat, List.Pairwise R l2 →
      List.Pairwise (fun p q : Nat × Nat => R p.2 q.2) (l1.zip l2) := by
  intro l1
  induction l1 with
  | nil => intro l2 _; simp
  | cons r rs ih =>
    intro l2 hpw
    cases l2 with
    | nil => simp
    | cons m ms =>
      rw [List.zip_cons_cons]
      refine List.Pairwise.cons ?_ (ih ms (List.pairwise_cons.mp hpw).2)
      intro q hq
      exact (List.pairwise_cons.mp hpw).1 q.2 (List.of_mem_zip hq).2

/-- Helper: the running sum only changes by multiples of the `N / m_i`
cofactors, so any `k` dividing all of them preserves congruence. -/
theorem crtLoop_congr : ∀ (pairs : List (Nat × Nat)) (sum N s k : Nat),
    crtLoop N pairs sum = some s → (∀ p ∈ pairs, k ∣ N / p.2) →
    s ≡ sum [MOD k] := by
  intro pairs
  induction pairs with
  | nil =>
    intro sum N s k h _
    cases h
    rfl
  | cons p rest ih =>
    intro sum N s k h hdvd
    match p with
    | (r, mi) =>
      cases hinv : mod_inverse_big (N / mi) mi with
      | none => rw [crtLoop, hinv] at h; cases h
      | some inv =>
        rw [crtLoop, hinv] at h
        have hrec := ih _ N s k h
          (fun q hq => hdvd q (List.mem_cons_of_mem _ hq))
        have hterm : k ∣ r * (N / mi) * inv := by
          have h1 : k ∣ N / mi := hdvd (r, mi) (List.mem_cons_self _ _)
          exact Dvd.dvd.mul_right (h1.mul_left r) inv
        calc s ≡ sum + r * (N / mi) * inv [MOD k] := hrec
          _ ≡ sum + 0 [MOD k] := by
              exact Nat.ModEq.add_left sum ((Nat.modEq_zero_iff_dvd).mpr hterm)
          _ = sum := by omega

/-- Helper: with invertible cofactors and pairwise cross-divisibility, the
CRT loop succeeds and the result is congruent to `sum + r_i` modulo each
`m_i`. -/
theorem crtLoop_spec : ∀ (pairs : List (Nat × Nat)) (sum N : Nat),
    (∀ p ∈ pairs, 2 ≤ p.2 ∧ Nat.gcd (N / p.2) p.2 = 1) →
    List.Pairwise (fun p q : Nat × Nat => p.2 ∣ N / q.2 ∧ q.2 ∣ N / p.2) pairs →
    ∃ s, crtLoop N pairs sum = some s ∧
      ∀ p ∈ pairs, s ≡ sum + p.1 [MOD p.2] := by
  intro pairs
  induction pairs with
  | nil =>
    intro sum N _ _
    exact ⟨sum, rfl, by simp⟩
  | cons p rest ih =>
    intro sum N hinv hpw
    match p with
    | (r, mi) =>
      obtain ⟨hmi2, hgcd⟩ := hinv (r, mi) (List.mem_cons_self _ _)
      obtain ⟨inv, hinveq, hinvlt, hinvmul⟩ := by
        have h := mod_inverse_eq_some (N / mi) mi hmi2 hgcd
        rwa [← mod_inverse_big_eq] at h
      obtain ⟨s, hs, hcong⟩ := ih (sum + r * (N / mi) * inv) N
        (fun q hq => hinv q (List.mem_cons_of_mem _ hq))
        (List.pairwise_cons.mp hpw).2
      refine ⟨s, ?_, ?_⟩
      · rw [crtLoop, hinveq]
        exact hs
      · intro q hq
        rcases List.mem_cons.mp hq with hq1 | hq2
        · subst hq1
          show s ≡ sum + r [MOD mi]
          have hrest_dvd : ∀ q ∈ rest, mi ∣ N / q.2 :=
            fun q hq => ((List.pairwise_cons.mp hpw).1 q hq).1
          have h1 : s ≡ sum + r * (N / mi) * inv [MOD mi] :=
            crtLoop_congr rest _ N s mi hs hrest_dvd
          have h2 : r * (N / mi) * inv ≡ r * 1 [MOD mi] := by
            have h3 : N / mi * inv ≡ 1 [MOD mi] := by
              show (N / mi * inv) % mi = 1 % mi
              rw [hinvmul, Nat.mod_eq_of_lt (by omega)]
            calc r * (N / mi) * inv = r * (N / mi * inv) := by ring
              _ ≡ r * 1 [MOD mi] := h3.mul_left r
          calc s ≡ sum + r * (N / mi) * inv [MOD mi] := h1
            _ ≡ sum + r * 1 [MOD mi] := h2.add_left sum
            _ = sum + r := by ring
        · have h1 : s ≡ sum + r * (N / mi) * inv + q.1 [MOD q.2] := hcong q hq2
          have hq_dvd : q.2 ∣ N / mi := ((List.pairwise_cons.mp hpw).1 q hq2).2
          have h2 : sum + r * (N / mi) * inv + q.1 ≡ sum + 0 + q.1 [MOD q.2] := by
            refine Nat.ModEq.add_right q.1 (Nat.ModEq.add_left sum ?_)
            exact (Nat.modEq_zero_iff_dvd).mpr (Dvd.dvd.mul_right (hq_dvd.mul_left r) inv)
          calc s ≡ sum + r * (N / mi) * inv + q.1 [MOD q.2] := h1
            _ ≡ sum + 0 + q.1 [MOD q.2] := h2
            _ = sum + q.1 := by ring

/-- Helper: full correctness of `chinese_remainder_theorem` under the
pairwise-coprime precondition. -/
theorem crt_correct (residues moduli : List Nat)
    (hcop : List.Pairwise Nat.Coprime moduli)
    (h2 : ∀ m ∈ moduli, 2 ≤ m) :
    ∃ x, chinese_remainder_theorem residues moduli = some x ∧
      x < moduli.prod ∧
      ∀ p ∈ residues.zip moduli, x ≡ p.1 [MOD p.2] := by
  have hpos : ∀ m ∈ moduli, 1 ≤ m := fun m hm => by have := h2 m hm; omega
  have hNpos : 0 < moduli.prod := List.prod_pos (fun m hm => hpos m hm)
  have hdivfacts := coprime_div_prod moduli hcop hpos
  have hinv : ∀ p ∈ residues.zip moduli, 2 ≤ p.2 ∧
      Nat.gcd (moduli.prod / p.2) p.2 = 1 := by
    intro p hp
    have hmem : p.2 ∈ moduli := (List.of_mem_zip hp).2
    refine ⟨h2 p.2 hmem, ?_⟩
    have := (hdivfacts p.2 hmem).2
    exact (Nat.coprime_comm.mp this)
  have hpwzip : List.Pairwise
      (fun p q : Nat × Nat => p.2 ∣ moduli.prod / q.2 ∧ q.2 ∣ moduli.prod / p.2)
      (residues.zip moduli) := by
    have hpw2 : List.Pairwise
        (fun a b : Nat => a ∣ moduli.prod / b ∧ b ∣ moduli.prod / a) moduli := by
      have hstep : ∀ a ∈ moduli, ∀ b ∈ moduli, Nat.Coprime a b →
          a ∣ moduli.prod / b := by
        intro a ha b hb hab
        have haN : a ∣ moduli.prod := (hdivfacts a ha).1
        have hbN : b ∣ moduli.prod := (hdivfacts b hb).1
        have hNresplit : moduli.prod = moduli.prod / b * b :=
          (Nat.div_mul_cancel hbN).symm
        refine hab.dvd_of_dvd_mul_right ?_
        rw [← hNresplit]
        exact haN
      rw [List.pairwise_iff_forall_sublist]
      intro a b hsub
      have hab := List.pairwise_iff_forall_sublist.mp hcop hsub
      have hmema : a ∈ moduli := hsub.subset (by simp)
      have hmemb : b ∈ moduli := hsub.subset (by simp)
      exact ⟨hstep a hmema b hmemb hab, hstep b hmemb a hmema hab.symm⟩
    exact pairwise_zip_right residues moduli hpw2
  obtain ⟨s, hs, hcong⟩ := crtLoop_spec (residues.zip moduli) 0 moduli.prod hinv hpwzip
  refine ⟨s % moduli.prod, ?_, Nat.mod_lt _ hNpos, ?_⟩
  · rw [chinese_remainder_theorem, hs]
    rfl
  · intro p hp
    have hmem : p.2 ∈ moduli := (List.of_mem_zip hp).2
    have hdvd : p.2 ∣ moduli.prod := (hdivfacts p.2 hmem).1
    have h1 : s % moduli.prod ≡ s [MOD p.2] :=
      (Nat.mod_modEq s moduli.prod).of_dvd hdvd
    have h2 : s ≡ 0 + p.1 [MOD p.2] := hcong p hp
    calc s % moduli.prod ≡ s [MOD p.2] := h1
      _ ≡ 0 + p.1 [MOD p.2] := h2
      _ = p.1 := by ring

/-- C6: for equal-length residue/moduli lists with pairwise-coprime moduli
all `≥ 2`, `chinese_remainder_theorem` returns `some x` with
`x < product(moduli)` and `x ≡ r_i (mod m_i)` for every zipped pair. -/
theorem C6_crt_correct (residues moduli : List Nat)
    (hlen : residues.length = moduli.length)
    (hcop : List.Pairwise Nat.Coprime moduli)
    (h2 : ∀ m ∈ moduli, 2 ≤ m) :
    ∃ x, chinese_remainder_theorem residues moduli = some x ∧
      x < moduli.prod ∧
      ∀ p ∈ residues.zip moduli, x ≡ p.1 [MOD p.2] :=
  crt_correct residues moduli hcop h2

/-- Witness for C6 at `residues = [1, 2]`, `moduli = [2, 3]`; additionally
the concrete answer is `5`. -/
theorem C6_crt_correct_witness :
    ([1, 2].length = [2, 3].length ∧ List.Pairwise Nat.Coprime [2, 3] ∧
      (∀ m ∈ [2, 3], 2 ≤ m) ∧
      chinese_remainder_theorem [1, 2] [2, 3] = some 5) ∧
    ∃ x, chinese_remainder_theorem [1, 2] [2, 3] = some x ∧
      x < ([2, 3] : List Nat).prod ∧
      ∀ p ∈ ([1, 2] : List Nat).zip [2, 3], x ≡ p.1 [MOD p.2] :=
  ⟨⟨by decide, by decide, by decide, by decide⟩,
    C6_crt_correct [1, 2] [2, 3] (by decide) (by decide) (by decide)⟩

/-! ### Integer square root and the `f64` step-count model

`baby_step_giant_step` computes `m = (order as f64).sqrt().ceil() as u128 + 1`.
The three floating-point steps are modeled exactly over the integers:
`u128 → f64` conversion is round-to-nearest-even at 53 significant bits,
`f64::sqrt` is the correctly rounded (IEEE-754, to-nearest-even) square
root, and `f64::ceil`/`as u128` are exact on the resulting dyadic value.
All rounding decisions are expressed with integer comparisons. -/

/-- Fueled bisection for the integer square root; maintains
`lo ^ 2 ≤ n < (hi + 1) ^ 2` and needs at most `hi - lo` steps. -/
def isqrtGo (n : Nat) : Nat → Nat → Nat → Nat
  | 0, lo, _ => lo
  | fuel + 1, lo, hi =>
    if hi ≤ lo then lo
    else
      if (lo + hi + 1) / 2 * ((lo + hi + 1) / 2) ≤ n then
        isqrtGo n fuel ((lo + hi + 1) / 2) hi
      else isqrtGo n fuel lo ((lo + hi + 1) / 2 - 1)

/-- Integer square root (kernel-computable; proved correct below). -/
def isqrt (n : Nat) : Nat := isqrtGo n (n + 1) 0 n

/-- Ceiling integer square root. -/
def ceilSqrt (n : Nat) : Nat := if isqrt n * isqrt n = n then isqrt n else isqrt n + 1

theorem isqrtGo_spec (n : Nat) : ∀ fuel lo hi, lo * lo ≤ n →
    n < (hi + 1) * (hi + 1) → lo ≤ hi → hi - lo ≤ fuel →
    isqrtGo n fuel lo hi * isqrtGo n fuel lo hi ≤ n ∧
      n < (isqrtGo n fuel lo hi + 1) * (isqrtGo n fuel lo hi + 1) := by
  intro fuel
  induction fuel with
  | zero =>
    intro lo hi hlo hhi hle hfuel
    have : lo = hi := by omega
    subst this
    exact ⟨hlo, hhi⟩
  | succ fuel ih =>
    intro lo hi hlo hhi hle hfuel
    show (isqrtGo n (fuel + 1) lo hi) * _ ≤ n ∧ _
    rw [isqrtGo]
    by_cases heq : hi ≤ lo
    · have : lo = hi := by omega
      subst this
      simp only [if_pos heq]
      exact ⟨hlo, hhi⟩
    · simp only [if_neg heq]
      have hmid1 : lo + 1 ≤ (lo + hi + 1) / 2 := by omega
      have hmid2 : (lo + hi + 1) / 2 ≤ hi := by omega
      by_cases hsq : (lo + hi + 1) / 2 * ((lo + hi + 1) / 2) ≤ n
      · simp only [if_pos hsq]
        exact ih _ hi hsq hhi hmid2 (by omega)
      · simp only [if_neg hsq]
        refine ih lo _ hlo ?_ (by omega) (by omega)
        have : (lo + hi + 1) / 2 - 1 + 1 = (lo + hi + 1) / 2 := by omega
        rw [this]
        omega

theorem isqrt_spec (n : Nat) :
    isqrt n * isqrt n ≤ n ∧ n < (isqrt n + 1) * (isqrt n + 1) := by
  refine isqrtGo_spec n (n + 1) 0 n (by omega) ?_ (Nat.zero_le n) (by omega)
  calc n < n + 1 := Nat.lt_succ_self n
    _ ≤ (n + 1) * (n + 1) := Nat.le_mul_of_pos_left _ (by omega)

/-- The integer square root is unique, so `isqrt` can be evaluated through
its characteristic inequalities. -/
theorem isqrt_eq_of (n k : Nat) (h1 : k * k ≤ n) (h2 : n < (k + 1) * (k + 1)) :
    isqrt n = k := by
  obtain ⟨ha, hb⟩ := isqrt_spec n
  by_contra hne
  rcases Nat.lt_or_ge (isqrt n) k with h | h
  · have : isqrt n + 1 ≤ k := by omega
    have := Nat.mul_le_mul this this
    omega
  · have hk : k + 1 ≤ isqrt n := by omega
    have := Nat.mul_le_mul hk hk
    omega

theorem ceilSqrt_spec (n : Nat) : n ≤ ceilSqrt n * ceilSqrt n := by
  obtain ⟨ha, hb⟩ := isqrt_spec n
  unfold ceilSqrt
  by_cases h : isqrt n * isqrt n = n
  · simp only [if_pos h]
    omega
  · simp only [if_neg h]
    omega

/-- Fueled binary logarithm (`⌊log₂ n⌋` for `n ≥ 1`). -/
def log2F : Nat → Nat → Nat
  | 0, _ => 0
  | fuel + 1, n => if 2 ≤ n then log2F fuel (n / 2) + 1 else 0

/-- `⌊log₂ n⌋`, kernel-computable. -/
def log2N (n : Nat) : Nat := log2F n n

theorem log2F_spec : ∀ fuel n, 1 ≤ n → n ≤ fuel →
    2 ^ log2F fuel n ≤ n ∧ n < 2 ^ (log2F fuel n + 1) := by
  intro fuel
  induction fuel with
  | zero => intro n h1 h2; omega
  | succ fuel ih =>
    intro n h1 h2
    by_cases h : 2 ≤ n
    · have hrec := ih (n / 2) (by omega) (by omega)
      show 2 ^ log2F (fuel + 1) n ≤ n ∧ n < 2 ^ (log2F (fuel + 1) n + 1)
      rw [log2F, if_pos h]
      rw [pow_succ, pow_succ] at *
      omega
    · show 2 ^ log2F (fuel + 1) n ≤ n ∧ n < 2 ^ (log2F (fuel + 1) n + 1)
      rw [log2F, if_neg h]
      simp
      omega

theorem log2N_spec (n : Nat) (h : 1 ≤ n) :
    2 ^ log2N n ≤ n ∧ n < 2 ^ (log2N n + 1) :=
  log2F_spec n n h (le_refl n)

/-- `(n as f64)` for `n : u128`: exact when `n ≤ 2 ^ 53`; otherwise round to
nearest even on the grid `2 ^ (⌊log₂ n⌋ - 52)`.  The result is returned as
the exact integer value of the double. -/
def rnd53 (n : Nat) : Nat :=
  if n ≤ 2 ^ 53 then n
  else
    if n % 2 ^ (log2N n - 52) > 2 ^ (log2N n - 52 - 1) ∨
        (n % 2 ^ (log2N n - 52) = 2 ^ (log2N n - 52 - 1) ∧
          n / 2 ^ (log2N n - 52) % 2 = 1) then
      (n / 2 ^ (log2N n - 52) + 1) * 2 ^ (log2N n - 52)
    else n / 2 ^ (log2N n - 52) * 2 ^ (log2N n - 52)

/-- Correctly rounded square root of an integer-valued double `v ≥ 0`,
returned as a dyadic `(z, t)` with value `z / 2 ^ t`.  The result exponent
is `e = ⌊log₂ √v⌋`; for `e ≤ 52` the representable grid is `2 ^ (e - 52)`,
i.e. `√v` is rounded to nearest at scale `t = 52 - e` (a tie would force
`(2z + 1) ^ 2 = 4 v 4 ^ t`, impossible by parity, so no tie rule is
needed); for `e > 52` the grid is the integer multiples of `2 ^ (e - 52)`
and ties round to even. -/
def sqrtRNE (v : Nat) : Nat × Nat :=
  if v = 0 then (0, 0)
  else
    if log2N (isqrt v) ≤ 52 then
      if (2 * isqrt (v * 4 ^ (52 - log2N (isqrt v))) + 1) *
          (2 * isqrt (v * 4 ^ (52 - log2N (isqrt v))) + 1) <
          4 * (v * 4 ^ (52 - log2N (isqrt v))) then
        (isqrt (v * 4 ^ (52 - log2N (isqrt v))) + 1, 52 - log2N (isqrt v))
      else (isqrt (v * 4 ^ (52 - log2N (isqrt v))), 52 - log2N (isqrt v))
    else
      if (2 * (isqrt v / 2 ^ (log2N (isqrt v) - 52)) + 1) *
          (2 * (isqrt v / 2 ^ (log2N (isqrt v) - 52)) + 1) *
          4 ^ (log2N (isqrt v) - 52) < 4 * v ∨
        ((2 * (isqrt v / 2 ^ (log2N (isqrt v) - 52)) + 1) *
          (2 * (isqrt v / 2 ^ (log2N (isqrt v) - 52)) + 1) *
          4 ^ (log2N (isqrt v) - 52) = 4 * v ∧
          isqrt v / 2 ^ (log2N (isqrt v) - 52) % 2 = 1) then
        ((isqrt v / 2 ^ (log2N (isqrt v) - 52) + 1) * 2 ^ (log2N (isqrt v) - 52), 0)
      else (isqrt v / 2 ^ (log2N (isqrt v) - 52) * 2 ^ (log2N (isqrt v) - 52), 0)

/-- `f64::ceil` followed by `as u128` on the dyadic square-root value. -/
def f64CeilSqrt (v : Nat) : Nat :=
  (sqrtRNE v).1 / 2 ^ (sqrtRNE v).2 +
    if (sqrtRNE v).1 % 2 ^ (sqrtRNE v).2 = 0 then 0 else 1

/-- `let m = (order as f64).sqrt().ceil() as u128 + 1;` from
`baby_step_giant_step`, modeled exactly. -/
def bsgsStepCount (order : Nat) : Nat := f64CeilSqrt (rnd53 order) + 1

/-- Helper: `isqrt` of an exact square times `4 ^ t`. -/
theorem isqrt_sq_mul (k t : Nat) : isqrt (k * k * 4 ^ t) = k * 2 ^ t := by
  have h4 : (4 : Nat) ^ t = 2 ^ t * 2 ^ t := by
    rw [show (4 : Nat) = 2 * 2 from rfl, Nat.mul_pow]
  refine isqrt_eq_of _ _ (by rw [h4]; ring_nf; omega) ?_
  rw [h4]
  nlinarith [Nat.pos_pow_of_pos t (show 0 < 2 by norm_num)]

/-- Helper: the square-root rounding never rounds an exact square upward. -/
theorem f64_square_no_roundup (k t : Nat) :
    ¬ ((2 * (k * 2 ^ t) + 1) * (2 * (k * 2 ^ t) + 1) <
      4 * (k * k * 4 ^ t)) := by
  have h4 : (4 : Nat) ^ t = 2 ^ t * 2 ^ t := by
    rw [show (4 : Nat) = 2 * 2 from rfl, Nat.mul_pow]
  push_neg
  rw [h4]
  nlinarith [Nat.pos_pow_of_pos t (show 0 < 2 by norm_num)]

/-- Helper: bounds of the scaled integer square root for a non-square. -/
theorem f64_nonsquare_bounds (k t n z : Nat)
    (hn_lo : k * k < n) (hn_hi : n < (k + 1) * (k + 1))
    (hz_lo : z * z ≤ n * 4 ^ t) (hz_hi : n * 4 ^ t < (z + 1) * (z + 1)) :
    k * 2 ^ t ≤ z ∧ z < (k + 1) * 2 ^ t := by
  have h4 : (4 : Nat) ^ t = 2 ^ t * 2 ^ t := by
    rw [show (4 : Nat) = 2 * 2 from rfl, Nat.mul_pow]
  constructor
  · by_contra hc
    push_neg at hc
    have h5 : z + 1 ≤ k * 2 ^ t := hc
    have h6 := Nat.mul_le_mul h5 h5
    rw [h4] at hz_hi
    nlinarith
  · by_contra hc
    push_neg at hc
    have h6 := Nat.mul_le_mul hc hc
    rw [h4] at hz_lo
    have h7 : n * (2 ^ t * 2 ^ t) < (k + 1) * (k + 1) * (2 ^ t * 2 ^ t) :=
      Nat.mul_lt_mul_of_lt_of_le hn_hi (le_refl _)
        (Nat.pos_pow_of_pos _ (by norm_num) |>.trans_le
          (Nat.le_mul_of_pos_left _ (Nat.pos_pow_of_pos _ (by norm_num))))
    nlinarith

/-- Helper: when the scaled root sits exactly on the low grid point of a
non-square (and the significand headroom `k + 1 ≤ 2 ^ t` holds), the
rounding test fires and the value is rounded up. -/
theorem f64_nonsquare_roundup (k t n : Nat) (hk : k + 1 ≤ 2 ^ t)
    (hn : k * k + 1 ≤ n) :
    (2 * (k * 2 ^ t) + 1) * (2 * (k * 2 ^ t) + 1) < 4 * (n * 4 ^ t) := by
  have h4 : (4 : Nat) ^ t = 2 ^ t * 2 ^ t := by
    rw [show (4 : Nat) = 2 * 2 from rfl, Nat.mul_pow]
  rw [h4]
  have hbpos : 0 < 2 ^ t := Nat.pos_pow_of_pos _ (by norm_num)
  nlinarith [Nat.mul_le_mul hn (le_refl (2 ^ t * 2 ^ t))]

/-- Helper: the ceiling of a dyadic `z / 2 ^ t` with
`k * 2 ^ t < z ≤ (k + 1) * 2 ^ t` is `k + 1`. -/
theorem f64_ceil_between (k t z : Nat)
    (hlo : k * 2 ^ t < z) (hhi : z ≤ (k + 1) * 2 ^ t) :
    z / 2 ^ t + (if z % 2 ^ t = 0 then 0 else 1) = k + 1 := by
  have hbpos : 0 < 2 ^ t := Nat.pos_pow_of_pos _ (by norm_num)
  rcases Nat.lt_or_ge z ((k + 1) * 2 ^ t) with h | h
  · have hdiv : z / 2 ^ t = k := Nat.div_eq_of_lt_le (by omega) h
    have hmodne : z % 2 ^ t ≠ 0 := by
      intro hc
      obtain ⟨c, hc2⟩ := Nat.dvd_of_mod_eq_zero hc
      subst hc2
      have hc3 : k < c := by
        by_contra hcc
        push_neg at hcc
        have := Nat.mul_le_mul_right (2 ^ t) hcc
        nlinarith
      have hc4 : c < k + 1 := by
        by_contra hcc
        push_neg at hcc
        have := Nat.mul_le_mul_right (2 ^ t) hcc
        nlinarith
      omega
    rw [hdiv, if_neg hmodne]
  · have heq : z = (k + 1) * 2 ^ t := by omega
    rw [heq, Nat.mul_mod_left, Nat.mul_div_cancel _ hbpos]
    simp

/-- Helper: the f64 step count agrees with the exact `⌈√order⌉ + 1` for
every `order ≤ 2 ^ 52` (this is the amended C4; above `2 ^ 52` the claim
fails, see the counterexample). -/
theorem bsgsStepCount_eq (order : Nat) (h1 : 1 ≤ order) (h2 : order ≤ 2 ^ 52) :
    bsgsStepCount order = ceilSqrt order + 1 := by
  have hrnd : rnd53 order = order := by
    rw [rnd53, if_pos (by norm_num at h2 ⊢; omega)]
  rw [bsgsStepCount, hrnd]
  suffices h : f64CeilSqrt order = ceilSqrt order by omega
  obtain ⟨hka, hkb⟩ := isqrt_spec order
  have hk1 : 1 ≤ isqrt order := by
    by_contra hc
    have : isqrt order = 0 := by omega
    rw [this] at hkb
    omega
  have hk26 : isqrt order ≤ 2 ^ 26 := by
    by_contra hc
    push_neg at hc
    have h5 : 2 ^ 26 + 1 ≤ isqrt order := hc
    have h6 := Nat.mul_le_mul h5 h5
    norm_num at h6 h2
    omega
  obtain ⟨hea, heb⟩ := log2N_spec (isqrt order) hk1
  have he26 : log2N (isqrt order) ≤ 26 := by
    by_contra hc
    push_neg at hc
    have h3 : (2 : Nat) ^ 27 ≤ 2 ^ log2N (isqrt order) :=
      Nat.pow_le_pow_right (by norm_num) (by omega)
    norm_num at h3 hk26
    omega
  have hbranch : log2N (isqrt order) ≤ 52 := by omega
  have h40 : order ≠ 0 := by omega
  have horder4 : order * 4 ^ (52 - log2N (isqrt order)) =
      isqrt order * isqrt order * 4 ^ (52 - log2N (isqrt order)) ∨
      isqrt order * isqrt order < order := by
    rcases eq_or_ne (isqrt order * isqrt order) order with h | h
    · left; rw [h]
    · right; omega
  by_cases hsq : isqrt order * isqrt order = order
  · -- perfect square: the f64 pipeline is exact
    have hprod : order * 4 ^ (52 - log2N (isqrt order)) =
        isqrt order * isqrt order * 4 ^ (52 - log2N (isqrt order)) := by
      rw [hsq]
    have hz : isqrt (order * 4 ^ (52 - log2N (isqrt order))) =
        isqrt order * 2 ^ (52 - log2N (isqrt order)) := by
      rw [hprod, isqrt_sq_mul]
    have hcond : ¬ ((2 * isqrt (order * 4 ^ (52 - log2N (isqrt order))) + 1) *
        (2 * isqrt (order * 4 ^ (52 - log2N (isqrt order))) + 1) <
        4 * (order * 4 ^ (52 - log2N (isqrt order)))) := by
      rw [hz, hprod]
      exact f64_square_no_roundup _ _
    have hsr : sqrtRNE order =
        (isqrt order * 2 ^ (52 - log2N (isqrt order)), 52 - log2N (isqrt order)) := by
      rw [sqrtRNE, if_neg h40, if_pos hbranch, if_neg hcond, hz]
    rw [f64CeilSqrt, hsr]
    have hmod : isqrt order * 2 ^ (52 - log2N (isqrt order)) %
        2 ^ (52 - log2N (isqrt order)) = 0 :=
      Nat.mul_mod_left _ _
    have hdiv : isqrt order * 2 ^ (52 - log2N (isqrt order)) /
        2 ^ (52 - log2N (isqrt order)) = isqrt order :=
      Nat.mul_div_cancel _ (Nat.pos_pow_of_pos _ (by norm_num))
    simp [hmod, hdiv, ceilSqrt, hsq]
  · -- non-square: the rounded square root lands strictly between the
    -- integer grid points, so the ceiling is `isqrt order + 1` either way
    have hklt : isqrt order * isqrt order < order := by omega
    have hstrict : order < 2 ^ 52 := by
      rcases Nat.lt_or_ge order (2 ^ 52) with h | h
      · exact h
      · exfalso
        have hoeq : order = 2 ^ 52 := by omega
        have hk27 : isqrt order = 2 ^ 26 := by
          refine isqrt_eq_of order (2 ^ 26) ?_ ?_ <;> rw [hoeq] <;> norm_num
        rw [hk27, hoeq] at hsq
        norm_num at hsq
    have hk26s : isqrt order < 2 ^ 26 := by
      by_contra hc
      push_neg at hc
      have h5 : isqrt order = 2 ^ 26 := by omega
      rw [h5] at hka
      norm_num at hka
      omega
    have he25 : log2N (isqrt order) ≤ 25 := by
      by_contra hc
      push_neg at hc
      have h3 : (2 : Nat) ^ 26 ≤ 2 ^ log2N (isqrt order) :=
        Nat.pow_le_pow_right (by norm_num) (by omega)
      norm_num at h3 hk26s
      omega
    have hkt : isqrt order + 1 ≤ 2 ^ (52 - log2N (isqrt order)) := by
      calc isqrt order + 1 ≤ 2 ^ (log2N (isqrt order) + 1) := heb
        _ ≤ 2 ^ (52 - log2N (isqrt order)) :=
          Nat.pow_le_pow_right (by norm_num) (by omega)
    obtain ⟨hza, hzb⟩ := isqrt_spec (order * 4 ^ (52 - log2N (isqrt order)))
    obtain ⟨hz_ge, hz_lt⟩ := f64_nonsquare_bounds (isqrt order)
      (52 - log2N (isqrt order)) order
      (isqrt (order * 4 ^ (52 - log2N (isqrt order)))) hklt hkb hza hzb
    have hlower : isqrt order * 2 ^ (52 - log2N (isqrt order)) <
        isqrt (order * 4 ^ (52 - log2N (isqrt order))) ∨
        ((2 * isqrt (order * 4 ^ (52 - log2N (isqrt order))) + 1) *
          (2 * isqrt (order * 4 ^ (52 - log2N (isqrt order))) + 1) <
          4 * (order * 4 ^ (52 - log2N (isqrt order)))) := by
      rcases Nat.lt_or_ge (isqrt order * 2 ^ (52 - log2N (isqrt order)))
        (isqrt (order * 4 ^ (52 - log2N (isqrt order)))) with h | h
      · exact Or.inl h
      · right
        have hzeq : isqrt (order * 4 ^ (52 - log2N (isqrt order))) =
            isqrt order * 2 ^ (52 - log2N (isqrt order)) := by omega
        rw [hzeq]
        exact f64_nonsquare_roundup _ _ _ hkt (by omega)
    have hceil : ∀ Z T : Nat, sqrtRNE order = (Z, T) →
        f64CeilSqrt order = Z / 2 ^ T + (if Z % 2 ^ T = 0 then 0 else 1) := by
      intro Z T h
      rw [f64CeilSqrt, h]
    have hcs : ceilSqrt order = isqrt order + 1 := by
      rw [ceilSqrt, if_neg hsq]
    by_cases hcond : (2 * isqrt (order * 4 ^ (52 - log2N (isqrt order))) + 1) *
        (2 * isqrt (order * 4 ^ (52 - log2N (isqrt order))) + 1) <
        4 * (order * 4 ^ (52 - log2N (isqrt order)))
    · have hsr : sqrtRNE order = (isqrt (order * 4 ^ (52 - log2N (isqrt order))) + 1,
          52 - log2N (isqrt order)) := by
        rw [sqrtRNE, if_neg h40, if_pos hbranch, if_pos hcond]
      rw [hceil _ _ hsr, hcs]
      exact f64_ceil_between _ _ _ (by omega) (by omega)
    · have hsr : sqrtRNE order = (isqrt (order * 4 ^ (52 - log2N (isqrt order))),
          52 - log2N (isqrt order)) := by
        rw [sqrtRNE, if_neg h40, if_pos hbranch, if_neg hcond]
      rw [hceil _ _ hsr, hcs]
      rcases hlower with h | h
      · exact f64_ceil_between _ _ _ h (by omega)
      · exact absurd h hcond

/-! ### Baby-step/giant-step -/

/-- The baby-step loop: `for j in 0..m { table.insert(g_j, j); g_j = mod_mul(g_j, g, p); }`.
The list records `(key, j)` in insertion order; fuel is the remaining
iteration count. -/
def babyList (g p : Nat) : Nat → Nat → Nat → List (Nat × Nat)
  | 0, _, _ => []
  | fuel + 1, j, gj => (gj, j) :: babyList g p fuel (j + 1) (mod_mul gj g p)

/-- `HashMap` lookup after the insertion loop: the *last* insertion for a
key wins, exactly as repeated `HashMap::insert` overwrites. -/
def tableGet (table : List (Nat × Nat)) (key : Nat) : Option Nat :=
  table.foldl (fun acc kv => if kv.1 = key then some kv.2 else acc) none

/-- The giant-step loop: look up `gamma`; on a hit with stored `j`, verify
`g ^ (i * m + j) ≡ h` and return on success; in every other case multiply
`gamma` by the inverse factor and continue. -/
def giantLoop (g h p m ginv : Nat) : Nat → Nat → Nat → Option Nat
  | 0, _, _ => none
  | fuel + 1, i, gamma =>
    match tableGet (babyList g p m 0 1) gamma with
    | some j =>
      if mod_pow g (i * m + j) p = h then some (i * m + j)
      else giantLoop g h p m ginv fuel (i + 1) (mod_mul gamma ginv p)
    | none => giantLoop g h p m ginv fuel (i + 1) (mod_mul gamma ginv p)

/-- The body of `baby_step_giant_step` after the step count `m` is fixed:
invert `g ^ m` (failing if no inverse exists) and run the giant-step scan
from `gamma = h`. -/
def bsgsCore (g h p m : Nat) : Option Nat :=
  match mod_inverse (mod_pow g m p) p with
  | none => none
  | some ginv => giantLoop g h p m ginv m 0 h

/-- `fn baby_step_giant_step(g, h, p, order)` with the f64 step count. -/
def baby_step_giant_step (g h p order : Nat) : Option Nat :=
  bsgsCore g h p (bsgsStepCount order)

/-- Helper: unfolding of one giant step on a table hit. -/
theorem giantLoop_step_some (g h p m ginv fuel i gamma j : Nat)
    (hget : tableGet (babyList g p m 0 1) gamma = some j) :
    giantLoop g h p m ginv (fuel + 1) i gamma =
      if mod_pow g (i * m + j) p = h then some (i * m + j)
      else giantLoop g h p m ginv fuel (i + 1) (mod_mul gamma ginv p) := by
  rw [giantLoop, hget]

/-- Helper: unfolding of one giant step on a table miss. -/
theorem giantLoop_step_none (g h p m ginv fuel i gamma : Nat)
    (hget : tableGet (babyList g p m 0 1) gamma = none) :
    giantLoop g h p m ginv (fuel + 1) i gamma =
      giantLoop g h p m ginv fuel (i + 1) (mod_mul gamma ginv p) := by
  rw [giantLoop, hget]

/-- Helper: any value returned by the giant-step loop passed verification. -/
theorem giantLoop_sound (g h p m ginv : Nat) :
    ∀ fuel i gamma x, giantLoop g h p m ginv fuel i gamma = some x →
      mod_pow g x p = h := by
  intro fuel
  induction fuel with
  | zero => intro i gamma x h2; cases h2
  | succ fuel ih =>
    intro i gamma x h2
    cases hget : tableGet (babyList g p m 0 1) gamma with
    | some j =>
      rw [giantLoop_step_some g h p m ginv fuel i gamma j hget] at h2
      by_cases hver : mod_pow g (i * m + j) p = h
      · rw [if_pos hver] at h2
        cases h2
        exact hver
      · rw [if_neg hver] at h2
        exact ih _ _ _ h2
    | none =>
      rw [giantLoop_step_none g h p m ginv fuel i gamma hget] at h2
      exact ih _ _ _ h2

/-- Helper: a `tableGet` hit is an entry of the table. -/
theorem tableGet_mem_aux (key : Nat) :
    ∀ (l : List (Nat × Nat)) (acc : Option Nat) (j : Nat),
      l.foldl (fun acc kv => if kv.1 = key then some kv.2 else acc) acc = some j →
      (key, j) ∈ l ∨ acc = some j := by
  intro l
  induction l with
  | nil => intro acc j h2; exact Or.inr h2
  | cons kv rest ih =>
    intro acc j h2
    rcases ih _ j h2 with h | h
    · exact Or.inl (List.mem_cons_of_mem kv h)
    · have h3 : (if kv.1 = key then some kv.2 else acc) = some j := h
      by_cases hk : kv.1 = key
      · rw [if_pos hk] at h3
        cases h3
        left
        have h4 : kv = (key, kv.2) := by
          cases kv
          cases hk
          rfl
        rw [← h4]
        exact List.mem_cons_self kv rest
      · rw [if_neg hk] at h3
        exact Or.inr h3

theorem tableGet_mem (table : List (Nat × Nat)) (key j : Nat)
    (h : tableGet table key = some j) : (key, j) ∈ table := by
  rcases tableGet_mem_aux key table none j h with h2 | h2
  · exact h2
  · cases h2

/-- Helper: if some entry carries the key, the lookup succeeds. -/
theorem tableGet_isSome_aux (key : Nat) :
    ∀ (l : List (Nat × Nat)) (acc : Option Nat),
      ((∃ kv ∈ l, kv.1 = key) ∨ ∃ j, acc = some j) →
      ∃ j, l.foldl (fun acc kv => if kv.1 = key then some kv.2 else acc) acc =
        some j := by
  intro l
  induction l with
  | nil =>
    intro acc h
    rcases h with ⟨kv, hkv, _⟩ | h
    · simp at hkv
    · exact h
  | cons kv rest ih =>
    intro acc h
    rcases h with ⟨kw, hkw, hkey⟩ | ⟨j, hj⟩
    · rcases List.mem_cons.mp hkw with h2 | h2
      · subst h2
        refine ih _ (Or.inr ⟨kw.2, ?_⟩)
        show (if kw.1 = key then some kw.2 else acc) = some kw.2
        rw [if_pos hkey]
      · exact ih _ (Or.inl ⟨kw, h2, hkey⟩)
    · subst hj
      by_cases hk : kv.1 = key
      · refine ih _ (Or.inr ⟨kv.2, ?_⟩)
        show (if kv.1 = key then some kv.2 else some j) = some kv.2
        rw [if_pos hk]
      · refine ih _ (Or.inr ⟨j, ?_⟩)
        show (if kv.1 = key then some kv.2 else some j) = some j
        rw [if_neg hk]

theorem tableGet_isSome (table : List (Nat × Nat)) (key : Nat)
    (h : ∃ kv ∈ table, kv.1 = key) : ∃ j, tableGet table key = some j :=
  tableGet_isSome_aux key table none (Or.inl h)

/-- Helper: with no `u128` wrap (`g < p ≤ 2 ^ 64`), every baby-step entry is
`(g ^ j % p, j)` with `j` in the covered window. -/
theorem babyList_sound (g p : Nat) (hp2 : 2 ≤ p) (hp64 : p ≤ 2 ^ 64) (hg : g < p) :
    ∀ fuel j0, ∀ kv ∈ babyList g p fuel j0 (g ^ j0 % p),
      kv.1 = g ^ kv.2 % p ∧ j0 ≤ kv.2 ∧ kv.2 < j0 + fuel := by
  intro fuel
  induction fuel with
  | zero => intro j0 kv hkv; simp [babyList] at hkv
  | succ fuel ih =>
    intro j0 kv hkv
    have hstepg : mod_mul (g ^ j0 % p) g p = g ^ (j0 + 1) % p := by
      rw [mod_mul_eq_of_le _ _ _ (Nat.mod_lt _ (by omega)) hg hp64,
        Nat.mod_mul_mod, pow_succ]
    rw [babyList, hstepg] at hkv
    rcases List.mem_cons.mp hkv with h2 | h2
    · subst h2
      exact ⟨rfl, le_refl j0, by omega⟩
    · obtain ⟨ha, hb, hc⟩ := ih (j0 + 1) kv h2
      exact ⟨ha, by omega, by omega⟩

/-- Helper: every `j` in the covered window produces an entry. -/
theorem babyList_complete (g p : Nat) (hp2 : 2 ≤ p) (hp64 : p ≤ 2 ^ 64) (hg : g < p) :
    ∀ fuel j0 j, j0 ≤ j → j < j0 + fuel →
      (g ^ j % p, j) ∈ babyList g p fuel j0 (g ^ j0 % p) := by
  intro fuel
  induction fuel with
  | zero => intro j0 j h1 h2; omega
  | succ fuel ih =>
    intro j0 j h1 h2
    have hstepg : mod_mul (g ^ j0 % p) g p = g ^ (j0 + 1) % p := by
      rw [mod_mul_eq_of_le _ _ _ (Nat.mod_lt _ (by omega)) hg hp64,
        Nat.mod_mul_mod, pow_succ]
    rw [babyList, hstepg]
    rcases eq_or_ne j j0 with h3 | h3
    · subst h3
      exact List.mem_cons_self _ _
    · exact List.mem_cons_of_mem _ (ih (j0 + 1) j (by omega) (by omega))

/-- The giant-step accumulator after `k` steps. -/
def gammaIter (p ginv : Nat) : Nat → Nat → Nat
  | 0, gamma => gamma
  | k + 1, gamma => gammaIter p ginv k (mod_mul gamma ginv p)

theorem gammaIter_eq (p ginv : Nat) (hp2 : 2 ≤ p) (hp64 : p ≤ 2 ^ 64)
    (hv : ginv < p) : ∀ k gamma, gamma < p →
      gammaIter p ginv k gamma = gamma * ginv ^ k % p := by
  intro k
  induction k with
  | zero =>
    intro gamma hga
    show gamma = gamma * ginv ^ 0 % p
    rw [pow_zero, Nat.mul_one, Nat.mod_eq_of_lt hga]
  | succ k ih =>
    intro gamma hga
    show gammaIter p ginv k (mod_mul gamma ginv p) = gamma * ginv ^ (k + 1) % p
    have hlt : mod_mul gamma ginv p < p :=
      (mod_mul_eq_of_le _ _ _ hga hv hp64) ▸ Nat.mod_lt _ (by omega)
    rw [ih _ hlt, mod_mul_eq_of_le _ _ _ hga hv hp64, Nat.mod_mul_mod]
    congr 1
    rw [pow_succ]
    ring

/-- Helper: if some giant step within the remaining fuel hits the table with
a verifying exponent, the loop returns a verified answer. -/
theorem giantLoop_complete (g h p m ginv : Nat) :
    ∀ fuel i gamma,
      (∃ k, k < fuel ∧ ∃ j,
        tableGet (babyList g p m 0 1) (gammaIter p ginv k gamma) = some j ∧
        mod_pow g ((i + k) * m + j) p = h) →
      ∃ x, giantLoop g h p m ginv fuel i gamma = some x ∧ mod_pow g x p = h := by
  intro fuel
  induction fuel with
  | zero =>
    intro i gamma h2
    obtain ⟨k, hk, _⟩ := h2
    omega
  | succ fuel ih =>
    intro i gamma h2
    obtain ⟨k, hk, j, hjget, hjver⟩ := h2
    cases hget : tableGet (babyList g p m 0 1) gamma with
    | some j0 =>
      by_cases hver : mod_pow g (i * m + j0) p = h
      · refine ⟨i * m + j0, ?_, hver⟩
        rw [giantLoop_step_some g h p m ginv fuel i gamma j0 hget, if_pos hver]
      · have hk0 : k ≠ 0 := by
          rintro rfl
          rw [show gammaIter p ginv 0 gamma = gamma from rfl, hget] at hjget
          cases hjget
          rw [Nat.add_zero] at hjver
          exact hver hjver
        obtain ⟨k2, rfl⟩ : ∃ k2, k = k2 + 1 := ⟨k - 1, by omega⟩
        have hshift : gammaIter p ginv (k2 + 1) gamma =
            gammaIter p ginv k2 (mod_mul gamma ginv p) := rfl
        obtain ⟨x, hx1, hx2⟩ := ih (i + 1) (mod_mul gamma ginv p)
          ⟨k2, by omega, j, by rw [← hshift]; exact hjget, by
            rw [show i + 1 + k2 = i + (k2 + 1) by omega]; exact hjver⟩
        refine ⟨x, ?_, hx2⟩
        rw [giantLoop_step_some g h p m ginv fuel i gamma j0 hget, if_neg hver]
        exact hx1
    | none =>
      have hk0 : k ≠ 0 := by
        rintro rfl
        rw [show gammaIter p ginv 0 gamma = gamma from rfl, hget] at hjget
        cases hjget
      obtain ⟨k2, rfl⟩ : ∃ k2, k = k2 + 1 := ⟨k - 1, by omega⟩
      have hshift : gammaIter p ginv (k2 + 1) gamma =
          gammaIter p ginv k2 (mod_mul gamma ginv p) := rfl
      obtain ⟨x, hx1, hx2⟩ := ih (i + 1) (mod_mul gamma ginv p)
        ⟨k2, by omega, j, by rw [← hshift]; exact hjget, by
          rw [show i + 1 + k2 = i + (k2 + 1) by omega]; exact hjver⟩
      refine ⟨x, ?_, hx2⟩
      rw [giantLoop_step_none g h p m ginv fuel i gamma hget]
      exact hx1

/-- Helper: unfolding of `bsgsCore` when the inversion fails. -/
theorem bsgsCore_eq_none (g h p m : Nat)
    (hinv : mod_inverse (mod_pow g m p) p = none) : bsgsCore g h p m = none := by
  rw [bsgsCore, hinv]

/-- Helper: unfolding of `bsgsCore` when the inversion succeeds. -/
theorem bsgsCore_eq_giant (g h p m v : Nat)
    (hinv : mod_inverse (mod_pow g m p) p = some v) :
    bsgsCore g h p m = giantLoop g h p m v m 0 h := by
  rw [bsgsCore, hinv]

/-- Helper: BSGS soundness — any returned value passed the
`mod_pow g x p == h` re-verification. -/
theorem bsgsCore_sound (g h p m y : Nat) (hy : bsgsCore g h p m = some y) :
    mod_pow g y p = h := by
  cases hinv : mod_inverse (mod_pow g m p) p with
  | none =>
    rw [bsgsCore_eq_none g h p m hinv] at hy
    cases hy
  | some v =>
    rw [bsgsCore_eq_giant g h p m v hinv] at hy
    exact giantLoop_sound g h p m v m 0 h y hy

/-- Helper: BSGS completeness for an arbitrary step count `m`: if some
`x < m ^ 2` solves `g ^ x ≡ h (mod p)`, with `g < p ≤ 2 ^ 64` coprime to
`p`, then the scan returns a verified answer. -/
theorem bsgsCore_complete (g h p m x : Nat) (hp2 : 2 ≤ p) (hp64 : p ≤ 2 ^ 64)
    (hg : g < p) (hcop : Nat.Coprime g p) (hxh : g ^ x % p = h)
    (hxm : x < m * m) :
    ∃ y, bsgsCore g h p m = some y ∧ g ^ y % p = h := by
  have hppos : 0 < p := by omega
  have hh : h < p := hxh ▸ Nat.mod_lt _ hppos
  have hmpos : 0 < m := by
    rcases Nat.eq_zero_or_pos m with h0 | h0
    · subst h0; omega
    · exact h0
  have hmp : mod_pow g m p = g ^ m % p := mod_pow_correct g m p (by omega) hp64
  have hgcd : Nat.gcd (mod_pow g m p) p = 1 := by
    rw [hmp]
    have h1 : Nat.gcd p (g ^ m) = Nat.gcd (g ^ m % p) p := Nat.gcd_rec p (g ^ m)
    rw [← h1, Nat.gcd_comm]
    exact Nat.Coprime.pow_left m hcop
  obtain ⟨v, hv_eq, hv_lt, hv_mul⟩ := mod_inverse_eq_some (mod_pow g m p) p hp2 hgcd
  have hunit : g ^ m * v % p = 1 := by
    rw [hmp, Nat.mod_mul_mod] at hv_mul
    exact hv_mul
  have hunit_modeq : g ^ m * v ≡ 1 [MOD p] := by
    show (g ^ m * v) % p = 1 % p
    rw [hunit, Nat.mod_eq_of_lt (by omega)]
  have hi0 : x / m < m := (Nat.div_lt_iff_lt_mul hmpos).mpr hxm
  have hj0 : x % m < m := Nat.mod_lt _ hmpos
  have hxsplit : m * (x / m) + x % m = x := Nat.div_add_mod x m
  have hgamma : gammaIter p v (x / m) h = g ^ (x % m) % p := by
    rw [gammaIter_eq p v hp2 hp64 hv_lt _ h hh]
    have hcalc : h * v ^ (x / m) ≡ g ^ (x % m) [MOD p] := by
      calc h * v ^ (x / m)
          ≡ g ^ x * v ^ (x / m) [MOD p] :=
            Nat.ModEq.mul_right _ (hxh ▸ (Nat.mod_modEq (g ^ x) p))
        _ = g ^ (x % m) * (g ^ m * v) ^ (x / m) := by
            rw [show g ^ x = g ^ (m * (x / m) + x % m) by rw [hxsplit],
              pow_add, pow_mul, mul_pow]
            ring
        _ ≡ g ^ (x % m) * 1 ^ (x / m) [MOD p] :=
            Nat.ModEq.mul_left _ (hunit_modeq.pow _)
        _ = g ^ (x % m) := by rw [one_pow, Nat.mul_one]
    exact hcalc
  have hbl : babyList g p m 0 1 = babyList g p m 0 (g ^ 0 % p) := by
    rw [pow_zero, Nat.mod_eq_of_lt (by omega)]
  have hmem : (g ^ (x % m) % p, x % m) ∈ babyList g p m 0 1 := by
    rw [hbl]
    exact babyList_complete g p hp2 hp64 hg m 0 (x % m) (Nat.zero_le _) (by omega)
  obtain ⟨j, hjget⟩ := tableGet_isSome _ _ ⟨(g ^ (x % m) % p, x % m), hmem, rfl⟩
  have hjmem := tableGet_mem _ _ _ hjget
  rw [hbl] at hjmem
  obtain ⟨hjkey, _, hjlt⟩ := babyList_sound g p hp2 hp64 hg m 0 _ hjmem
  have hver : mod_pow g ((0 + x / m) * m + j) p = h := by
    rw [mod_pow_correct g _ p (by omega) hp64, Nat.zero_add]
    have hcalc : g ^ (x / m * m + j) ≡ g ^ x [MOD p] := by
      have hjj : g ^ j ≡ g ^ (x % m) [MOD p] := by
        show g ^ j % p = g ^ (x % m) % p
        exact hjkey.symm
      calc g ^ (x / m * m + j) = (g ^ m) ^ (x / m) * g ^ j := by
            rw [show x / m * m = m * (x / m) by ring, pow_add, pow_mul]
        _ ≡ (g ^ m) ^ (x / m) * g ^ (x % m) [MOD p] :=
            Nat.ModEq.mul_left _ hjj
        _ = g ^ x := by
            rw [← pow_mul, ← pow_add, hxsplit]
    show g ^ (x / m * m + j) % p = h
    rw [hcalc, hxh]
  obtain ⟨y, hy1, hy2⟩ := giantLoop_complete g h p m v m 0 h
    ⟨x / m, hi0, j, by rw [hgamma]; exact hjget, hver⟩
  refine ⟨y, ?_, ?_⟩
  · rw [bsgsCore_eq_giant g h p m v hv_eq]
    exact hy1
  · rw [mod_pow_correct g y p (by omega) hp64] at hy2
    exact hy2

/-- Helper: minimality of the ceiling square root. -/
theorem ceilSqrt_min (n y : Nat) (h : n ≤ y * y) : ceilSqrt n ≤ y := by
  obtain ⟨ha, hb⟩ := isqrt_spec n
  rw [ceilSqrt]
  by_cases hsq : isqrt n * isqrt n = n
  · simp only [if_pos hsq]
    by_contra hc
    push_neg at hc
    have h5 : y + 1 ≤ isqrt n := by omega
    have h6 := Nat.mul_le_mul h5 h5
    nlinarith
  · simp only [if_neg hsq]
    by_contra hc
    push_neg at hc
    have hle : y ≤ isqrt n := by omega
    have h6 := Nat.mul_le_mul hle hle
    omega

/-- C4 counterexample: at `order = 2 ^ 52 + 1` the `f64` pipeline loses the
`+1` and computes `m = 2 ^ 26 + 1`, while the exact value
`⌈√(2 ^ 52 + 1)⌉ + 1` is `2 ^ 26 + 2` — so the claimed agreement for every
accepted `u128` order is false. -/
theorem C4_step_count_counterexample :
    bsgsStepCount (2 ^ 52 + 1) = 2 ^ 26 + 1 ∧
    ceilSqrt (2 ^ 52 + 1) + 1 = 2 ^ 26 + 2 ∧
    bsgsStepCount (2 ^ 52 + 1) ≠ ceilSqrt (2 ^ 52 + 1) + 1 := by
  refine ⟨by decide, by decide, by decide⟩

/-- C4 (amended): for every `1 ≤ order ≤ 2 ^ 52` the step count computed
through `f64` equals the exact mathematical `⌈√order⌉ + 1`, where
`ceilSqrt order` is characterized as the least `y` with `order ≤ y ^ 2`;
above `2 ^ 52` agreement fails (see the counterexample). -/
theorem C4_step_count_exact (order : Nat) (h1 : 1 ≤ order) (h2 : order ≤ 2 ^ 52) :
    bsgsStepCount order = ceilSqrt order + 1 ∧
    order ≤ ceilSqrt order * ceilSqrt order ∧
    ∀ y, order ≤ y * y → ceilSqrt order ≤ y :=
  ⟨bsgsStepCount_eq order h1 h2, ceilSqrt_spec order, fun y => ceilSqrt_min order y⟩

/-- Witness for C4 at `order = 547` (a prime-power subgroup order actually
used by the fixed group): `m = 25 = ⌈√547⌉ + 1`. -/
theorem C4_step_count_exact_witness :
    ((1 ≤ 547 ∧ (547 : Nat) ≤ 2 ^ 52) ∧ bsgsStepCount 547 = 25) ∧
    (bsgsStepCount 547 = ceilSqrt 547 + 1 ∧
      547 ≤ ceilSqrt 547 * ceilSqrt 547 ∧
      ∀ y, 547 ≤ y * y → ceilSqrt 547 ≤ y) :=
  ⟨⟨⟨by decide, by norm_num⟩, by decide⟩,
    C4_step_count_exact 547 (by decide) (by norm_num)⟩

/-- C3 counterexample: at `g = 2`, `h = 1`, `p = 3`, `order = 2` all the
claim's hypotheses hold (`2` has order `2` dividing `order` mod `3`, and
`x = 0 < order` satisfies `2 ^ 0 ≡ 1`), yet the function returns
`some 2` with `2 ∉ [0, order)` — the baby-step overwrite makes the result
exceed the claimed range. -/
theorem C3_bsgs_counterexample :
    Nat.Coprime 2 3 ∧ 2 ^ 2 % 3 = 1 ∧ (0 : Nat) < 2 ∧ 2 ^ 0 % 3 = 1 ∧
    baby_step_giant_step 2 1 3 2 = some 2 ∧ ¬(2 : Nat) < 2 := by
  refine ⟨by decide, by decide, by decide, by decide, by decide, by decide⟩

/-- C3 (amended): for `g < p ≤ 2 ^ 64` coprime to `p`, `1 ≤ order ≤ 2 ^ 52`
with `g ^ order ≡ 1 (mod p)`, and some `x < order` with `g ^ x ≡ h (mod p)`,
`baby_step_giant_step` returns `some y` whose re-verification holds:
`g ^ y ≡ h (mod p)` (the returned exponent can lie outside `[0, order)`,
see the counterexample); moreover every returned value is verified
(`None` can arise only from an exhausted scan or a failed inversion). -/
theorem C3_bsgs_finds_verified (g h p order x : Nat) (hp2 : 2 ≤ p)
    (hp64 : p ≤ 2 ^ 64) (hg : g < p) (hcop : Nat.Coprime g p)
    (hord1 : 1 ≤ order) (hord52 : order ≤ 2 ^ 52)
    (hgord : g ^ order % p = 1) (hx : x < order) (hxh : g ^ x % p = h) :
    (∃ y, baby_step_giant_step g h p order = some y ∧ g ^ y % p = h) ∧
    ∀ y, baby_step_giant_step g h p order = some y → mod_pow g y p = h := by
  constructor
  · refine bsgsCore_complete g h p (bsgsStepCount order) x hp2 hp64 hg hcop hxh ?_
    have hm := bsgsStepCount_eq order hord1 hord52
    have hcs := ceilSqrt_spec order
    have hmono : ceilSqrt order * ceilSqrt order <
        bsgsStepCount order * bsgsStepCount order := by
      rw [hm]
      exact mul_lt_mul_of_lt_of_lt (by omega) (by omega)
    omega
  · intro y hy
    exact bsgsCore_sound g h p _ y hy

/-- Witness for C3 at `(g, h, p, order, x) = (2, 1, 3, 2, 0)`. -/
theorem C3_bsgs_finds_verified_witness :
    (2 ≤ 3 ∧ (3 : Nat) ≤ 2 ^ 64 ∧ 2 < 3 ∧ Nat.Coprime 2 3 ∧
      (1 : Nat) ≤ 2 ∧ (2 : Nat) ≤ 2 ^ 52 ∧ 2 ^ 2 % 3 = 1 ∧ (0 : Nat) < 2 ∧
      2 ^ 0 % 3 = 1) ∧
    ((∃ y, baby_step_giant_step 2 1 3 2 = some y ∧ 2 ^ y % 3 = 1) ∧
      ∀ y, baby_step_giant_step 2 1 3 2 = some y → mod_pow 2 y 3 = 1) :=
  ⟨⟨by decide, by norm_num, by decide, by decide, by decide, by norm_num,
      by decide, by decide, by decide⟩,
    C3_bsgs_finds_verified 2 1 3 2 0 (by decide) (by norm_num) (by decide)
      (by decide) (by decide) (by norm_num) (by decide) (by decide) (by decide)⟩

/-! ### Pohlig–Hellman orchestrator -/

/-- The per-factor loop of `pohlig_hellman`: for each `(prime, exp)` compute
the reduced subproblem `g_i = g ^ (order / prime ^ exp)`,
`h_i = h ^ (order / prime ^ exp)` and solve it with BSGS, collecting
`(x_i, prime_power)` pairs; any failed subproblem aborts the whole loop
(the `?` operator). -/
def solveFactors (g h p order : Nat) : List (Nat × Nat) → Option (List (Nat × Nat))
  | [] => some []
  | (prime, e) :: rest =>
    match baby_step_giant_step (mod_pow g (order / prime ^ e) p)
        (mod_pow h (order / prime ^ e) p) p (prime ^ e) with
    | none => none
    | some x =>
      match solveFactors g h p order rest with
      | none => none
      | some l => some ((x, prime ^ e) :: l)

/-- `fn pohlig_hellman(g, h, p)`: factor `order = p - 1`, solve every
prime-power subproblem, recombine with CRT, parse the `BigUint` back to
`u128` (`result.to_string().parse::<u128>().ok()?` succeeds exactly when
the value is below `2 ^ 128`), and return only a verified exponent. -/
def pohlig_hellman (g h p : Nat) : Option Nat :=
  match solveFactors g h p (p - 1) (factor_order (p - 1)) with
  | none => none
  | some pairs =>
    match chinese_remainder_theorem (pairs.map Prod.fst) (pairs.map Prod.snd) with
    | none => none
    | some result =>
      if result < U128 then
        if mod_pow g result p = h then some result else none
      else none

/-- `.ok_or(DhCrackError::DiscreteLogFailed)?` followed by wrapping the
recovered exponent into a `DhKey`, as `crack_dh` does with the solver
result. -/
def crackFromResult (res : Option Nat) : Except DhCrackError DhKey :=
  match res with
  | none => .error .discreteLogFailed
  | some private_val => .ok ⟨private_val⟩

/-- `pub fn crack_dh(public_key)`. -/
def crack_dh (public_key : DhKey) : Except DhCrackError DhKey :=
  crackFromResult (pohlig_hellman GENERATOR public_key.value MODULUS)

/-- `pub fn dh_exchange(private_key)`. -/
def dh_exchange (private_key : DhKey) : DhKey :=
  ⟨mod_pow GENERATOR private_key.value MODULUS⟩

/-- `pub fn dh_secret(peer_public, private_key)`. -/
def dh_secret (peer_public private_key : DhKey) : DhKey :=
  ⟨mod_pow peer_public.value private_key.value MODULUS⟩

/-- Helper: decomposition of a successful `pohlig_hellman` run. -/
theorem pohlig_hellman_some_inv (g h p x : Nat)
    (hx : pohlig_hellman g h p = some x) :
    ∃ pairs, solveFactors g h p (p - 1) (factor_order (p - 1)) = some pairs ∧
      chinese_remainder_theorem (pairs.map Prod.fst) (pairs.map Prod.snd) =
        some x ∧ x < U128 ∧ mod_pow g x p = h := by
  cases hsf : solveFactors g h p (p - 1) (factor_order (p - 1)) with
  | none =>
    have heq : pohlig_hellman g h p = none := by
      simp only [pohlig_hellman, hsf]
    rw [heq] at hx
    cases hx
  | some pairs =>
    cases hcrt : chinese_remainder_theorem (pairs.map Prod.fst)
        (pairs.map Prod.snd) with
    | none =>
      have heq : pohlig_hellman g h p = none := by
        simp only [pohlig_hellman, hsf, hcrt]
      rw [heq] at hx
      cases hx
    | some r =>
      have heq : pohlig_hellman g h p =
          if r < U128 then (if mod_pow g r p = h then some r else none)
          else none := by
        simp only [pohlig_hellman, hsf, hcrt]
      rw [heq] at hx
      by_cases hu : r < U128
      · rw [if_pos hu] at hx
        by_cases hv : mod_pow g r p = h
        · rw [if_pos hv] at hx
          cases hx
          exact ⟨pairs, rfl, hcrt, hu, hv⟩
        · rw [if_neg hv] at hx
          cases hx
      · rw [if_neg hu] at hx
        cases hx

/-- Helper: the moduli collected by the factor loop are exactly the prime
powers of the factor list. -/
theorem solveFactors_snd (g h p order : Nat) :
    ∀ (L : List (Nat × Nat)) pairs, solveFactors g h p order L = some pairs →
      pairs.map Prod.snd = L.map (fun qe => qe.1 ^ qe.2) := by
  intro L
  induction L with
  | nil =>
    intro pairs hp2
    cases hp2
    rfl
  | cons qe rest ih =>
    intro pairs hp2
    match qe with
    | (prime, e) =>
      cases hb : baby_step_giant_step (mod_pow g (order / prime ^ e) p)
          (mod_pow h (order / prime ^ e) p) p (prime ^ e) with
      | none => simp [solveFactors, hb] at hp2
      | some x =>
        cases hrest : solveFactors g h p order rest with
        | none => simp [solveFactors, hb, hrest] at hp2
        | some l =>
          have hpl : pairs = (x, prime ^ e) :: l := by
            simp [solveFactors, hb, hrest] at hp2
            exact hp2.symm
          subst hpl
          simp [ih l hrest]

/-- Helper: a successful CRT result is below the product of the moduli. -/
theorem crt_result_lt (rs ms : List Nat) (r : Nat) (hpos : 0 < ms.prod)
    (h : chinese_remainder_theorem rs ms = some r) : r < ms.prod := by
  cases hc : crtLoop ms.prod (rs.zip ms) 0 with
  | none => simp [chinese_remainder_theorem, hc] at h
  | some s =>
    have hr : r = s % ms.prod := by
      simp [chinese_remainder_theorem, hc] at h
      exact h.symm
    rw [hr]
    exact Nat.mod_lt _ hpos

/-- Helper: the product of all prime powers of `factor_order n` is `n`
(for `n ≥ 1`). -/
theorem factor_order_prod (n : Nat) (hn : 1 ≤ n) :
    ((factor_order n).map fun qe => qe.1 ^ qe.2).prod = n :=
  (factorLoop_spec (n + 2) n 2 (le_refl 2) hn (by omega)
    (fun k hk2 hk2' => absurd (by omega : (2:Nat) ≤ 1) (by omega))).1

set_option maxRecDepth 4000 in
set_option maxHeartbeats 2000000 in
/-- C2: whenever `pohlig_hellman g h p` (with `p ≥ 2`) returns `some x`,
the result is verified (`mod_pow g x p = h`, the code's own final check)
and in range `0 ≤ x < p - 1`; consequently `crack_dh` only ever returns a
verified private key for the fixed group.  Failures of any intermediate
step propagate to `none` by construction, so no unverified exponent is
ever surfaced. -/
theorem C2_verified_result_only :
    (∀ g h p x : Nat, 2 ≤ p → pohlig_hellman g h p = some x →
      mod_pow g x p = h ∧ x < p - 1) ∧
    (∀ k k2 : DhKey, crack_dh k = .ok k2 →
      mod_pow GENERATOR k2.value MODULUS = k.value ∧ k2.value < MODULUS - 1) := by
  have hmain : ∀ g h p x : Nat, 2 ≤ p → pohlig_hellman g h p = some x →
      mod_pow g x p = h ∧ x < p - 1 := by
    intro g h p x hp hx
    obtain ⟨pairs, hsf, hcrt, hu, hv⟩ := pohlig_hellman_some_inv g h p x hx
    refine ⟨hv, ?_⟩
    have hsnd := solveFactors_snd g h p (p - 1) _ pairs hsf
    have hprod : (pairs.map Prod.snd).prod = p - 1 := by
      rw [hsnd]
      exact factor_order_prod (p - 1) (by omega)
    have hlt := crt_result_lt _ _ x (by rw [hprod]; omega) hcrt
    rw [hprod] at hlt
    exact hlt
  refine ⟨hmain, ?_⟩
  intro k k2 hk
  obtain ⟨res, hres⟩ : ∃ res, pohlig_hellman GENERATOR k.value MODULUS = res :=
    ⟨_, rfl⟩
  have hck : crack_dh k = crackFromResult res := by
    rw [crack_dh, hres]
  rw [hck] at hk
  cases res with
  | none => cases hk
  | some v =>
    have hk2 : (⟨v⟩ : DhKey) = k2 := by
      have hv2 : crackFromResult (some v) = .ok ⟨v⟩ := rfl
      rw [hv2] at hk
      injection hk
    rw [← hk2]
    refine hmain GENERATOR k.value MODULUS v ?_ hres
    show 2 ≤ 2 ^ 64 - 59
    norm_num

/-- Witness for C2 at `(g, h, p) = (2, 2, 3)` where the solver returns
`some 1`. -/
theorem C2_verified_result_only_witness :
    ((2 : Nat) ≤ 3 ∧ pohlig_hellman 2 2 3 = some 1) ∧
    (mod_pow 2 1 3 = 2 ∧ 1 < 3 - 1) :=
  ⟨⟨by decide, by decide⟩,
    C2_verified_result_only.1 2 2 3 1 (by decide) (by decide)⟩

/-! ### The fixed group: certified structure of the order of `5`

`pohlig_hellman` is run by `crack_dh` only at `g = 5`, `p = 2 ^ 64 - 59`.
The group order is `p - 1 = 2 ^ 2 * 11 * 137 * 547 * 5594472617641`; the
largest factor is certified prime by the Lucas test, and `5` is certified
to be a primitive root by checking `5 ^ ((p - 1) / q) ≢ 1` for every prime
divisor `q` of `p - 1`.  All modular powers are computed through the
program's own `mod_pow` (proved exact below `2 ^ 64` by
`mod_pow_correct`). -/

/-- Helper: the group order as a numeral. -/
theorem modulus_sub_one : MODULUS - 1 = 18446744073709551556 := by
  show 2 ^ 64 - 59 - 1 = 18446744073709551556
  norm_num

/-- Helper: a `mod_pow` computation that lands on `1` certifies that the
corresponding power in `ZMod P` is `1`. -/
theorem zmod_pow_eq_one (P a k : Nat) (hP : 2 ≤ P) (hP64 : P ≤ 2 ^ 64)
    (hv : mod_pow a k P = 1) : (a : ZMod P) ^ k = 1 := by
  rw [← Nat.cast_pow, ← ZMod.natCast_mod, ← mod_pow_correct a k P (by omega) hP64,
    hv, Nat.cast_one]

/-- Helper: a `mod_pow` computation that lands on a value `≠ 1` (and `< P`)
certifies that the corresponding power in `ZMod P` is not `1`. -/
theorem zmod_pow_ne_one (P a k v : Nat) (hP : 2 ≤ P) (hP64 : P ≤ 2 ^ 64)
    (hv : mod_pow a k P = v) (hv1 : v ≠ 1) (hvP : v < P) :
    (a : ZMod P) ^ k ≠ 1 := by
  intro hc
  have h2 : ((v : Nat) : ZMod P) = ((1 : Nat) : ZMod P) := by
    rw [← hv, mod_pow_correct a k P (by omega) hP64, ZMod.natCast_mod,
      Nat.cast_pow, hc, Nat.cast_one]
  have h3 : v % P = 1 % P := (ZMod.natCast_eq_natCast_iff v 1 P).mp h2
  rw [Nat.mod_eq_of_lt hvP, Nat.mod_eq_of_lt (by omega)] at h3
  exact hv1 h3

/-- Helper: the largest prime factor of the group order,
`R = 5594472617641`, certified by the Lucas primality test with witness
`13` (`R - 1 = 2 ^ 3 * 3 * 5 * 1427 * 2131 * 15331`). -/
theorem R_prime : Nat.Prime 5594472617641 := by
  refine lucas_primality 5594472617641 ((13 : Nat) : ZMod 5594472617641) ?_ ?_
  · exact zmod_pow_eq_one 5594472617641 13 (5594472617641 - 1) (by norm_num)
      (by norm_num) (by decide)
  · intro q hq hqd
    have hcases : q = 2 ∨ q = 3 ∨ q = 5 ∨ q = 1427 ∨ q = 2131 ∨ q = 15331 := by
      have hfact : (5594472617641 - 1 : Nat) =
          2 ^ 3 * (3 * (5 * (1427 * (2131 * 15331)))) := by norm_num
      rw [hfact] at hqd
      rcases (Nat.Prime.dvd_mul hq).mp hqd with h | h
      · exact Or.inl ((Nat.prime_dvd_prime_iff_eq hq (by norm_num)).mp
          (hq.dvd_of_dvd_pow h))
      rcases (Nat.Prime.dvd_mul hq).mp h with h | h
      · exact Or.inr (Or.inl ((Nat.prime_dvd_prime_iff_eq hq (by norm_num)).mp h))
      rcases (Nat.Prime.dvd_mul hq).mp h with h | h
      · exact Or.inr (Or.inr (Or.inl
          ((Nat.prime_dvd_prime_iff_eq hq (by norm_num)).mp h)))
      rcases (Nat.Prime.dvd_mul hq).mp h with h | h
      · exact Or.inr (Or.inr (Or.inr (Or.inl
          ((Nat.prime_dvd_prime_iff_eq hq (by norm_num)).mp h))))
      rcases (Nat.Prime.dvd_mul hq).mp h with h | h
      · exact Or.inr (Or.inr (Or.inr (Or.inr (Or.inl
          ((Nat.prime_dvd_prime_iff_eq hq (by norm_num)).mp h)))))
      · exact Or.inr (Or.inr (Or.inr (Or.inr (Or.inr
          ((Nat.prime_dvd_prime_iff_eq hq (by norm_num)).mp h)))))
    rcases hcases with rfl | rfl | rfl | rfl | rfl | rfl
    · exact zmod_pow_ne_one 5594472617641 13 ((5594472617641 - 1) / 2)
        5594472617640 (by norm_num) (by norm_num) (by decide) (by decide)
        (by decide)
    · exact zmod_pow_ne_one 5594472617641 13 ((5594472617641 - 1) / 3)
        633520002390 (by norm_num) (by norm_num) (by decide) (by decide)
        (by decide)
    · exact zmod_pow_ne_one 5594472617641 13 ((5594472617641 - 1) / 5)
        5539104407118 (by norm_num) (by norm_num) (by decide) (by decide)
        (by decide)
    · exact zmod_pow_ne_one 5594472617641 13 ((5594472617641 - 1) / 1427)
        693744849281 (by norm_num) (by norm_num) (by decide) (by decide)
        (by decide)
    · exact zmod_pow_ne_one 5594472617641 13 ((5594472617641 - 1) / 2131)
        2614630137118 (by norm_num) (by norm_num) (by decide) (by decide)
        (by decide)
    · exact zmod_pow_ne_one 5594472617641 13 ((5594472617641 - 1) / 15331)
        4170830691369 (by norm_num) (by norm_num) (by decide) (by decide)
        (by decide)

/-- Helper: the complete list of prime divisors of the group order
`MODULUS - 1 = 2 ^ 2 * 11 * 137 * 547 * 5594472617641`. -/
theorem order_dvd_cases (q : Nat) (hq : Nat.Prime q) (h : q ∣ MODULUS - 1) :
    q = 2 ∨ q = 11 ∨ q = 137 ∨ q = 547 ∨ q = 5594472617641 := by
  rw [modulus_sub_one] at h
  have hfact : (18446744073709551556 : Nat) =
      2 ^ 2 * (11 * (137 * (547 * 5594472617641))) := by norm_num
  rw [hfact] at h
  rcases (Nat.Prime.dvd_mul hq).mp h with h | h
  · exact Or.inl ((Nat.prime_dvd_prime_iff_eq hq (by norm_num)).mp
      (hq.dvd_of_dvd_pow h))
  rcases (Nat.Prime.dvd_mul hq).mp h with h | h
  · exact Or.inr (Or.inl ((Nat.prime_dvd_prime_iff_eq hq (by norm_num)).mp h))
  rcases (Nat.Prime.dvd_mul hq).mp h with h | h
  · exact Or.inr (Or.inr (Or.inl
      ((Nat.prime_dvd_prime_iff_eq hq (by norm_num)).mp h)))
  rcases (Nat.Prime.dvd_mul hq).mp h with h | h
  · exact Or.inr (Or.inr (Or.inr (Or.inl
      ((Nat.prime_dvd_prime_iff_eq hq (by norm_num)).mp h))))
  · exact Or.inr (Or.inr (Or.inr (Or.inr
      ((Nat.prime_dvd_prime_iff_eq hq R_prime).mp h))))

/-- Helper: every prime power dividing the group order is at most `2 ^ 52`
(the largest is `5594472617641 < 2 ^ 52`), so the `f64` step count inside
BSGS is exact on every subproblem the fixed group produces. -/
theorem order_primepow_le (q e : Nat) (hq : Nat.Prime q)
    (hdvd : q ^ e ∣ MODULUS - 1) : q ^ e ≤ 2 ^ 52 := by
  rcases Nat.eq_zero_or_pos e with rfl | he
  · rw [pow_zero]; norm_num
  have hqn : q ∣ MODULUS - 1 := dvd_trans (dvd_pow_self q (by omega)) hdvd
  rcases order_dvd_cases q hq hqn with rfl | rfl | rfl | rfl | rfl
  · have he2 : e ≤ 2 := by
      by_contra hc
      have h8 : (8 : Nat) ∣ MODULUS - 1 :=
        dvd_trans (dvd_trans (by norm_num) (pow_dvd_pow 2 (by omega : 3 ≤ e)))
          hdvd
      rw [modulus_sub_one] at h8
      omega
    calc (2 : Nat) ^ e ≤ 2 ^ 2 := Nat.pow_le_pow_right (by omega) he2
      _ ≤ 2 ^ 52 := by norm_num
  · have he1 : e ≤ 1 := by
      by_contra hc
      have h2 : (121 : Nat) ∣ MODULUS - 1 :=
        dvd_trans (dvd_trans (by norm_num) (pow_dvd_pow 11 (by omega : 2 ≤ e)))
          hdvd
      rw [modulus_sub_one] at h2
      omega
    calc (11 : Nat) ^ e ≤ 11 ^ 1 := Nat.pow_le_pow_right (by omega) he1
      _ ≤ 2 ^ 52 := by norm_num
  · have he1 : e ≤ 1 := by
      by_contra hc
      have h2 : (18769 : Nat) ∣ MODULUS - 1 :=
        dvd_trans (dvd_trans (by norm_num) (pow_dvd_pow 137 (by omega : 2 ≤ e)))
          hdvd
      rw [modulus_sub_one] at h2
      omega
    calc (137 : Nat) ^ e ≤ 137 ^ 1 := Nat.pow_le_pow_right (by omega) he1
      _ ≤ 2 ^ 52 := by norm_num
  · have he1 : e ≤ 1 := by
      by_contra hc
      have h2 : (299209 : Nat) ∣ MODULUS - 1 :=
        dvd_trans (dvd_trans (by norm_num) (pow_dvd_pow 547 (by omega : 2 ≤ e)))
          hdvd
      rw [modulus_sub_one] at h2
      omega
    calc (547 : Nat) ^ e ≤ 547 ^ 1 := Nat.pow_le_pow_right (by omega) he1
      _ ≤ 2 ^ 52 := by norm_num
  · have he1 : e ≤ 1 := by
      by_contra hc
      have h2 : (31298123869534942584404881 : Nat) ∣ MODULUS - 1 :=
        dvd_trans (dvd_trans (by norm_num)
          (pow_dvd_pow 5594472617641 (by omega : 2 ≤ e))) hdvd
      rw [modulus_sub_one] at h2
      have := Nat.le_of_dvd (by omega) h2
      omega
    calc (5594472617641 : Nat) ^ e ≤ 5594472617641 ^ 1 :=
        Nat.pow_le_pow_right (by omega) he1
      _ ≤ 2 ^ 52 := by norm_num

instance : NeZero MODULUS := ⟨by show 2 ^ 64 - 59 ≠ 0; norm_num⟩

/-- Helper: the generator is coprime to the modulus. -/
theorem coprime_five : Nat.Coprime 5 MODULUS := by
  show Nat.Coprime 5 (2 ^ 64 - 59)
  norm_num

/-- The generator `5` as a unit of `ZMod MODULUS`. -/
def u5 : (ZMod MODULUS)ˣ := ZMod.unitOfCoprime 5 coprime_five

/-- Helper: the underlying residue of `u5`. -/
theorem u5_val : (u5 : ZMod MODULUS) = ((5 : Nat) : ZMod MODULUS) :=
  ZMod.coe_unitOfCoprime 5 coprime_five

/-- Helper: a `mod_pow` computation certifies `u5 ^ k = 1`. -/
theorem u5_pow_eq_one (k : Nat) (hv : mod_pow 5 k MODULUS = 1) : u5 ^ k = 1 := by
  have hP2 : 2 ≤ MODULUS := by show 2 ≤ 2 ^ 64 - 59; norm_num
  have hP64 : MODULUS ≤ 2 ^ 64 := by show 2 ^ 64 - 59 ≤ 2 ^ 64; norm_num
  apply Units.ext
  rw [Units.val_pow_eq_pow_val, Units.val_one, u5_val]
  exact zmod_pow_eq_one MODULUS 5 k hP2 hP64 hv

/-- Helper: a `mod_pow` computation certifies `u5 ^ k ≠ 1`. -/
theorem u5_pow_ne_one (k v : Nat) (hv : mod_pow 5 k MODULUS = v) (h1 : v ≠ 1)
    (hvP : v < MODULUS) : u5 ^ k ≠ 1 := by
  have hP2 : 2 ≤ MODULUS := by show 2 ≤ 2 ^ 64 - 59; norm_num
  have hP64 : MODULUS ≤ 2 ^ 64 := by show 2 ^ 64 - 59 ≤ 2 ^ 64; norm_num
  intro hc
  have h3 := congrArg Units.val hc
  rw [Units.val_pow_eq_pow_val, Units.val_one, u5_val] at h3
  exact zmod_pow_ne_one MODULUS 5 k v hP2 hP64 hv h1 hvP h3

set_option maxRecDepth 4000 in
/-- Helper: `5` is a primitive root modulo `2 ^ 64 - 59`: the order of `u5`
is the full group order.  Maximality is certified by `mod_pow` computations
at `(MODULUS - 1) / q` for each of the five prime divisors `q`. -/
theorem orderOf_u5 : orderOf u5 = MODULUS - 1 := by
  have hfull : u5 ^ (MODULUS - 1) = 1 := u5_pow_eq_one (MODULUS - 1) (by decide)
  have hdvd : orderOf u5 ∣ MODULUS - 1 := orderOf_dvd_of_pow_eq_one hfull
  by_contra hne
  have hopos : 0 < orderOf u5 := orderOf_pos u5
  have hn1 : 1 ≤ MODULUS - 1 := by rw [modulus_sub_one]; omega
  have hcne : (MODULUS - 1) / orderOf u5 ≠ 1 := by
    intro hc1
    refine hne ?_
    have h2 := Nat.div_mul_cancel hdvd
    rw [hc1, one_mul] at h2
    exact h2
  obtain ⟨q, hq, hqc⟩ := Nat.exists_prime_and_dvd hcne
  have hq_dvd_n : q ∣ MODULUS - 1 := hqc.trans (Nat.div_dvd_of_dvd hdvd)
  have hord_dvd : orderOf u5 ∣ (MODULUS - 1) / q := by
    obtain ⟨t, ht⟩ := hqc
    refine ⟨t, ?_⟩
    have hsplit : MODULUS - 1 = orderOf u5 * ((MODULUS - 1) / orderOf u5) :=
      (Nat.mul_div_cancel' hdvd).symm
    rw [hsplit, ht, Nat.mul_left_comm (orderOf u5) q t,
      Nat.mul_div_cancel_left _ hq.pos]
  have hone : u5 ^ ((MODULUS - 1) / q) = 1 := orderOf_dvd_iff_pow_eq_one.mp hord_dvd
  rcases order_dvd_cases q hq hq_dvd_n with rfl | rfl | rfl | rfl | rfl
  · exact u5_pow_ne_one ((MODULUS - 1) / 2) 18446744073709551556 (by decide)
      (by decide) (by decide) hone
  · exact u5_pow_ne_one ((MODULUS - 1) / 11) 14926365385974592157 (by decide)
      (by decide) (by decide) hone
  · exact u5_pow_ne_one ((MODULUS - 1) / 137) 3346097404549838006 (by decide)
      (by decide) (by decide) hone
  · exact u5_pow_ne_one ((MODULUS - 1) / 547) 10807434765896011965 (by decide)
      (by decide) (by decide) hone
  · exact u5_pow_ne_one ((MODULUS - 1) / 5594472617641) 7293648916228302286
      (by decide) (by decide) (by decide) hone

/-- Helper: the reduced generator `u5 ^ ((MODULUS - 1) / pe)` has order
exactly `pe` for every divisor `pe` of the group order. -/
theorem orderOf_u5_pow (pe : Nat) (hpe : pe ∣ MODULUS - 1) :
    orderOf (u5 ^ ((MODULUS - 1) / pe)) = pe := by
  rw [orderOf_pow u5, orderOf_u5, Nat.gcd_comm,
    Nat.gcd_eq_left (Nat.div_dvd_of_dvd hpe)]
  exact Nat.div_div_self hpe (by rw [modulus_sub_one]; omega)

/-- Helper: congruent powers of the reduced generator have congruent
exponents modulo the prime power: from
`5 ^ (c * y) ≡ 5 ^ (c * x) (mod MODULUS)` with `c = (MODULUS - 1) / pe`
follows `y ≡ x (mod pe)`. -/
theorem exponent_congruence (pe y x : Nat) (hpe : pe ∣ MODULUS - 1)
    (h : 5 ^ ((MODULUS - 1) / pe * y) % MODULUS =
      5 ^ ((MODULUS - 1) / pe * x) % MODULUS) :
    y ≡ x [MOD pe] := by
  have hz : ((5 : Nat) : ZMod MODULUS) ^ ((MODULUS - 1) / pe * y) =
      ((5 : Nat) : ZMod MODULUS) ^ ((MODULUS - 1) / pe * x) := by
    have h2 : ((5 ^ ((MODULUS - 1) / pe * y) % MODULUS : Nat) : ZMod MODULUS) =
        ((5 ^ ((MODULUS - 1) / pe * x) % MODULUS : Nat) : ZMod MODULUS) := by
      rw [h]
    rwa [ZMod.natCast_mod, ZMod.natCast_mod, Nat.cast_pow, Nat.cast_pow] at h2
  have hu : (u5 ^ ((MODULUS - 1) / pe)) ^ y = (u5 ^ ((MODULUS - 1) / pe)) ^ x := by
    apply Units.ext
    simp only [Units.val_pow_eq_pow_val, u5_val]
    rw [← pow_mul, ← pow_mul]
    exact hz
  have hmod := pow_eq_pow_iff_modEq.mp hu
  rwa [orderOf_u5_pow pe hpe] at hmod

set_option maxRecDepth 4000 in
/-- Helper: each prime-power subproblem produced by `pohlig_hellman` on the
fixed group succeeds, and its answer is congruent to the true exponent
modulo the prime power.  The step-count hypothesis of `bsgsCore_complete`
holds because every prime power of the group order is `≤ 2 ^ 52`, where
the `f64` pipeline computes the exact `⌈√order⌉ + 1`. -/
theorem subproblem_solved (x q e : Nat) (hq : Nat.Prime q) (he : 1 ≤ e)
    (hdvd : q ^ e ∣ MODULUS - 1) :
    ∃ xi, baby_step_giant_step (mod_pow 5 ((MODULUS - 1) / q ^ e) MODULUS)
        (mod_pow (mod_pow 5 x MODULUS) ((MODULUS - 1) / q ^ e) MODULUS)
        MODULUS (q ^ e) = some xi ∧ xi ≡ x [MOD q ^ e] := by
  have hP2 : 2 ≤ MODULUS := by show 2 ≤ 2 ^ 64 - 59; norm_num
  have hP64 : MODULUS ≤ 2 ^ 64 := by show 2 ^ 64 - 59 ≤ 2 ^ 64; norm_num
  have hpe2 : 2 ≤ q ^ e := by
    calc 2 ≤ q := hq.two_le
      _ = q ^ 1 := (pow_one q).symm
      _ ≤ q ^ e := Nat.pow_le_pow_right (by have := hq.two_le; omega) he
  have hpe52 : q ^ e ≤ 2 ^ 52 := order_primepow_le q e hq hdvd
  have hc_mul : (MODULUS - 1) / q ^ e * q ^ e = MODULUS - 1 :=
    Nat.div_mul_cancel hdvd
  have hgi : mod_pow 5 ((MODULUS - 1) / q ^ e) MODULUS =
      5 ^ ((MODULUS - 1) / q ^ e) % MODULUS :=
    mod_pow_correct _ _ _ (by omega) hP64
  have hhi : mod_pow (mod_pow 5 x MODULUS) ((MODULUS - 1) / q ^ e) MODULUS =
      5 ^ (x * ((MODULUS - 1) / q ^ e)) % MODULUS := by
    rw [mod_pow_correct (mod_pow 5 x MODULUS) ((MODULUS - 1) / q ^ e) MODULUS
        (by omega) hP64,
      mod_pow_correct 5 x MODULUS (by omega) hP64, ← Nat.pow_mod, ← pow_mul]
  have h51 : 5 ^ (MODULUS - 1) % MODULUS = 1 := by
    have hmp := mod_pow_correct 5 (MODULUS - 1) MODULUS (by omega) hP64
    rw [← hmp]
    decide
  have hkey : (5 ^ ((MODULUS - 1) / q ^ e) % MODULUS) ^ (x % q ^ e) % MODULUS =
      5 ^ (x * ((MODULUS - 1) / q ^ e)) % MODULUS := by
    rw [← Nat.pow_mod, ← pow_mul]
    have hsplit : x * ((MODULUS - 1) / q ^ e) =
        (MODULUS - 1) * (x / q ^ e) +
          (MODULUS - 1) / q ^ e * (x % q ^ e) := by
      calc x * ((MODULUS - 1) / q ^ e)
          = (q ^ e * (x / q ^ e) + x % q ^ e) * ((MODULUS - 1) / q ^ e) := by
            rw [Nat.div_add_mod]
        _ = (MODULUS - 1) / q ^ e * q ^ e * (x / q ^ e) +
              (MODULUS - 1) / q ^ e * (x % q ^ e) := by ring
        _ = (MODULUS - 1) * (x / q ^ e) +
              (MODULUS - 1) / q ^ e * (x % q ^ e) := by rw [hc_mul]
    rw [hsplit]
    have hcong : 5 ^ ((MODULUS - 1) * (x / q ^ e) +
          (MODULUS - 1) / q ^ e * (x % q ^ e)) ≡
        5 ^ ((MODULUS - 1) / q ^ e * (x % q ^ e)) [MOD MODULUS] := by
      rw [pow_add, pow_mul]
      have h1 : (5 : Nat) ^ (MODULUS - 1) ≡ 1 [MOD MODULUS] := by
        show 5 ^ (MODULUS - 1) % MODULUS = 1 % MODULUS
        rw [h51, Nat.mod_eq_of_lt (by omega)]
      calc ((5 : Nat) ^ (MODULUS - 1)) ^ (x / q ^ e) *
            5 ^ ((MODULUS - 1) / q ^ e * (x % q ^ e))
          ≡ 1 ^ (x / q ^ e) *
            5 ^ ((MODULUS - 1) / q ^ e * (x % q ^ e)) [MOD MODULUS] :=
            Nat.ModEq.mul_right _ (h1.pow _)
        _ = 5 ^ ((MODULUS - 1) / q ^ e * (x % q ^ e)) := by
            rw [one_pow, one_mul]
    exact hcong.symm
  have hg_lt : mod_pow 5 ((MODULUS - 1) / q ^ e) MODULUS < MODULUS := by
    rw [hgi]
    exact Nat.mod_lt _ (by omega)
  have hcop : Nat.Coprime (mod_pow 5 ((MODULUS - 1) / q ^ e) MODULUS) MODULUS := by
    rw [hgi]
    have h1 : Nat.gcd MODULUS (5 ^ ((MODULUS - 1) / q ^ e)) =
        Nat.gcd (5 ^ ((MODULUS - 1) / q ^ e) % MODULUS) MODULUS :=
      Nat.gcd_rec MODULUS _
    show Nat.gcd (5 ^ ((MODULUS - 1) / q ^ e) % MODULUS) MODULUS = 1
    rw [← h1, Nat.gcd_comm]
    exact Nat.Coprime.pow_left _ coprime_five
  have hxm : x % q ^ e < bsgsStepCount (q ^ e) * bsgsStepCount (q ^ e) := by
    have hm := bsgsStepCount_eq (q ^ e) (by omega) hpe52
    have hcs := ceilSqrt_spec (q ^ e)
    have hmono : ceilSqrt (q ^ e) * ceilSqrt (q ^ e) <
        bsgsStepCount (q ^ e) * bsgsStepCount (q ^ e) := by
      rw [hm]
      exact mul_lt_mul_of_lt_of_lt (by omega) (by omega)
    have hxlt : x % q ^ e < q ^ e := Nat.mod_lt _ (by omega)
    omega
  obtain ⟨y, hy_eq, hy_prop⟩ := bsgsCore_complete
    (mod_pow 5 ((MODULUS - 1) / q ^ e) MODULUS)
    (mod_pow (mod_pow 5 x MODULUS) ((MODULUS - 1) / q ^ e) MODULUS)
    MODULUS (bsgsStepCount (q ^ e)) (x % q ^ e) hP2 hP64 hg_lt hcop
    (by rw [hgi, hhi]; exact hkey) hxm
  refine ⟨y, hy_eq, ?_⟩
  rw [hgi, hhi, ← Nat.pow_mod, ← pow_mul,
    Nat.mul_comm x ((MODULUS - 1) / q ^ e)] at hy_prop
  exact exponent_congruence (q ^ e) y x hdvd hy_prop

/-- Helper: with `g = 5` and `h = 5 ^ x mod MODULUS`, the per-factor loop
solves every subproblem of a factor list whose entries are prime powers
dividing the group order; the collected moduli are those prime powers and
every collected residue is congruent to `x`. -/
theorem solveFactors_complete (x : Nat) :
    ∀ L : List (Nat × Nat),
      (∀ qe ∈ L, Nat.Prime qe.1 ∧ 1 ≤ qe.2 ∧ qe.1 ^ qe.2 ∣ MODULUS - 1) →
      ∃ pairs, solveFactors 5 (mod_pow 5 x MODULUS) MODULUS (MODULUS - 1) L
          = some pairs ∧
        pairs.map Prod.snd = L.map (fun qe => qe.1 ^ qe.2) ∧
        ∀ pr ∈ pairs, pr.1 ≡ x [MOD pr.2] := by
  intro L
  induction L with
  | nil => exact fun _ => ⟨[], rfl, rfl, by simp⟩
  | cons qe rest ih =>
    intro hfacts
    obtain ⟨prime, e⟩ := qe
    obtain ⟨hq, he, hdvd⟩ := hfacts (prime, e) (List.mem_cons_self _ _)
    obtain ⟨xi, hbs, hcong⟩ := subproblem_solved x prime e hq he hdvd
    obtain ⟨pairs, hrest, hsnd, hcongs⟩ :=
      ih fun q2 hq2 => hfacts q2 (List.mem_cons_of_mem _ hq2)
    refine ⟨(xi, prime ^ e) :: pairs, ?_, ?_, ?_⟩
    · simp only [solveFactors, hbs, hrest]
    · simp only [List.map_cons, hsnd]
    · intro pr hpr
      rcases List.mem_cons.mp hpr with h1 | h2
      · subst h1
        exact hcong
      · exact hcongs pr h2

/-- Helper: each entry of `factor_order n` is a prime with positive
exponent whose prime power divides `n`. -/
theorem factor_order_facts (n : Nat) (hn : 2 ≤ n) :
    ∀ qe ∈ factor_order n, Nat.Prime qe.1 ∧ 1 ≤ qe.2 ∧ qe.1 ^ qe.2 ∣ n := by
  obtain ⟨hprod, hfacts, hpw⟩ := factorLoop_spec (n + 2) n 2 (le_refl 2)
    (by omega) (by omega)
    (fun k hk2 hk2' => absurd (by omega : (2:Nat) ≤ 1) (by omega))
  intro qe hqe
  have hqe2 : qe ∈ factorLoop (n + 2) n 2 := hqe
  refine ⟨(hfacts qe hqe2).1, (hfacts qe hqe2).2.1, ?_⟩
  have hmem : qe.1 ^ qe.2 ∈
      (factorLoop (n + 2) n 2).map (fun p2 => p2.1 ^ p2.2) :=
    List.mem_map_of_mem _ hqe2
  have hd := List.dvd_prod hmem
  rwa [hprod] at hd

/-- Helper: the prime powers produced by `factor_order` are pairwise
coprime (their bases are distinct primes). -/
theorem factor_order_pairwise_coprime (n : Nat) (hn : 2 ≤ n) :
    List.Pairwise Nat.Coprime ((factor_order n).map fun qe => qe.1 ^ qe.2) := by
  obtain ⟨hprod, hfacts, hpw⟩ := factorLoop_spec (n + 2) n 2 (le_refl 2)
    (by omega) (by omega)
    (fun k hk2 hk2' => absurd (by omega : (2:Nat) ≤ 1) (by omega))
  rw [List.pairwise_map]
  rw [List.pairwise_iff_forall_sublist] at hpw ⊢
  intro a b hsub
  have hab : a.1 < b.1 := hpw hsub
  have hma : a ∈ factorLoop (n + 2) n 2 := hsub.subset (by simp)
  have hmb : b ∈ factorLoop (n + 2) n 2 := hsub.subset (by simp)
  exact Nat.Coprime.pow a.2 b.2
    ((Nat.coprime_primes (hfacts a hma).1 (hfacts b hmb).1).mpr
      (Nat.ne_of_lt hab))

/-- Helper: simultaneous congruences modulo the members of a
pairwise-coprime list combine into one congruence modulo its product. -/
theorem modEq_list_prod : ∀ ms : List Nat, List.Pairwise Nat.Coprime ms →
    ∀ a b : Nat, (∀ m ∈ ms, a ≡ b [MOD m]) → a ≡ b [MOD ms.prod] := by
  intro ms
  induction ms with
  | nil =>
    intro _ a b _
    rw [List.prod_nil]
    exact Nat.modEq_one
  | cons m rest ih =>
    intro hpw a b h
    rw [List.prod_cons]
    have hcop : Nat.Coprime m rest.prod :=
      coprime_list_prod m rest (List.pairwise_cons.mp hpw).1
    exact (Nat.modEq_and_modEq_iff_modEq_mul hcop).mp
      ⟨h m (List.mem_cons_self _ _),
        ih (List.pairwise_cons.mp hpw).2 a b
          (fun y hy => h y (List.mem_cons_of_mem _ hy))⟩

/-- Helper: forward unfolding of a successful `pohlig_hellman` run. -/
theorem pohlig_hellman_eq_some (g h p x : Nat) (pairs : List (Nat × Nat))
    (hsf : solveFactors g h p (p - 1) (factor_order (p - 1)) = some pairs)
    (hcrt : chinese_remainder_theorem (pairs.map Prod.fst) (pairs.map Prod.snd)
      = some x)
    (hu : x < U128) (hv : mod_pow g x p = h) :
    pohlig_hellman g h p = some x := by
  simp only [pohlig_hellman, hsf, hcrt]
  rw [if_pos hu, if_pos hv]

/-- Helper: the complete discrete-log round trip on the fixed group — for
any exponent below the group order, `pohlig_hellman` recovers it
exactly. -/
theorem pohlig_hellman_roundtrip (x : Nat) (hx : x < MODULUS - 1) :
    pohlig_hellman GENERATOR (mod_pow GENERATOR x MODULUS) MODULUS = some x := by
  have hn2 : 2 ≤ MODULUS - 1 := by rw [modulus_sub_one]; omega
  obtain ⟨pairs, hsf, hsnd, hcongs⟩ :=
    solveFactors_complete x (factor_order (MODULUS - 1))
      (factor_order_facts (MODULUS - 1) hn2)
  have hcop : List.Pairwise Nat.Coprime (pairs.map Prod.snd) := by
    rw [hsnd]
    exact factor_order_pairwise_coprime (MODULUS - 1) hn2
  have h2all : ∀ m ∈ pairs.map Prod.snd, 2 ≤ m := by
    rw [hsnd]
    intro m hm
    obtain ⟨qe, hqe, rfl⟩ := List.mem_map.mp hm
    obtain ⟨hq, he, _⟩ := factor_order_facts (MODULUS - 1) hn2 qe hqe
    calc 2 ≤ qe.1 := hq.two_le
      _ = qe.1 ^ 1 := (pow_one _).symm
      _ ≤ qe.1 ^ qe.2 := Nat.pow_le_pow_right (by have := hq.two_le; omega) he
  obtain ⟨r, hcrt, hrlt, hrcong⟩ :=
    crt_correct (pairs.map Prod.fst) (pairs.map Prod.snd) hcop h2all
  have hprod : (pairs.map Prod.snd).prod = MODULUS - 1 := by
    rw [hsnd]
    exact factor_order_prod (MODULUS - 1) (by omega)
  have hzip : (pairs.map Prod.fst).zip (pairs.map Prod.snd) = pairs := by
    rw [List.zip_map' Prod.fst Prod.snd pairs]
    simp
  have hrx : ∀ pr ∈ pairs, r ≡ x [MOD pr.2] := by
    intro pr hpr
    have h1 : r ≡ pr.1 [MOD pr.2] := hrcong pr (by rw [hzip]; exact hpr)
    exact h1.trans (hcongs pr hpr)
  have hmod : r ≡ x [MOD MODULUS - 1] := by
    rw [← hprod]
    refine modEq_list_prod (pairs.map Prod.snd) hcop r x ?_
    intro m hm
    obtain ⟨pr, hpr, rfl⟩ := List.mem_map.mp hm
    exact hrx pr hpr
  have hrlt2 : r < MODULUS - 1 := by rw [← hprod]; exact hrlt
  have hrx_eq : r = x := by
    have h1 : r % (MODULUS - 1) = x % (MODULUS - 1) := hmod
    rwa [Nat.mod_eq_of_lt hrlt2, Nat.mod_eq_of_lt hx] at h1
  rw [hrx_eq] at hcrt
  have hu : x < U128 := by
    have h1 : MODULUS - 1 ≤ U128 := by
      show 2 ^ 64 - 59 - 1 ≤ 2 ^ 128
      norm_num
    omega
  exact pohlig_hellman_eq_some 5 (mod_pow 5 x MODULUS) MODULUS x pairs hsf hcrt
    hu rfl

/-- C1: round trip on the fixed group `p = 2 ^ 64 - 59`, `g = 5` — for
every private exponent `x ∈ [1, p - 2]`, cracking the exchanged public
value recovers `x` exactly: the discrete log of `dh_exchange(x).value` is
`some x`, and `crack_dh (dh_exchange x)` succeeds returning exactly the
key with value `x`. -/
theorem C1_crack_roundtrip (x : Nat) (hx1 : 1 ≤ x) (hx2 : x ≤ MODULUS - 2) :
    pohlig_hellman GENERATOR (dh_exchange ⟨x⟩).value MODULUS = some x ∧
    crack_dh (dh_exchange ⟨x⟩) = .ok ⟨x⟩ := by
  have hM : 2 ≤ MODULUS := by show 2 ≤ 2 ^ 64 - 59; norm_num
  have hx : x < MODULUS - 1 := by omega
  have hph := pohlig_hellman_roundtrip x hx
  have hval : (dh_exchange ⟨x⟩).value = mod_pow GENERATOR x MODULUS := rfl
  refine ⟨?_, ?_⟩
  · rw [hval]
    exact hph
  · show crackFromResult
      (pohlig_hellman GENERATOR (dh_exchange ⟨x⟩).value MODULUS) = .ok ⟨x⟩
    rw [hval, hph]
    rfl

/-- Witness for C1 at `x = 3`: the hypotheses hold and the round trip
recovers `3`. -/
theorem C1_crack_roundtrip_witness :
    ((1 : Nat) ≤ 3 ∧ (3 : Nat) ≤ MODULUS - 2) ∧
    (pohlig_hellman GENERATOR (dh_exchange ⟨3⟩).value MODULUS = some 3 ∧
      crack_dh (dh_exchange ⟨3⟩) = .ok ⟨3⟩) :=
  ⟨⟨by decide, by decide⟩, C1_crack_roundtrip 3 (by decide) (by decide)⟩

end DhCrack
